import Mathlib

/-!
# Arbitrary-precision integers of `src/bigint.cpp`: a shallow embedding

A `BigInt` is a sign flag and a list of 64-bit words, least significant first.
Every function below is transcribed from the C++ function of the same name.

* `uint64_t` and `size_t` values are natural numbers; where the source relies on
  wrap-around the reduction modulo `WORD = 2 ^ 64` is written out.
* A function that can hit a failed assertion, read outside the words it is given, or
  perform an undefined operation returns `Except Fault _`. The subtraction loop of
  `bigint_add` reads `items[i]` without a length test; `bigint_add_mem` takes the words
  lying behind the digits as arguments, `bigint_add` is the case where none are known.
* `for (;;)` loops are recursions on a fuel argument; the fuel passed by the
  caller is an upper bound on the number of iterations, and running out of it is
  the distinguished fault `Fault.fuel`.
-/

namespace ZigBigInt

/-! ## Data model -/

/-- Number of values of a 64-bit word (`uint64_t`, `size_t`): `2 ^ 64`. -/
def WORD : Nat := 18446744073709551616

/-- The largest value of `size_t` (and of `uint64_t`). -/
def SIZE_MAX : Nat := 18446744073709551615

/-- Ways in which a call can fail to produce a value. -/
inductive Fault where
  /-- a raw read `digits.items[i]` with `i` not below `digits.length` -/
  | outOfBounds
  /-- a failed `assert`, including the bounds assertion of `digits.at(i)` -/
  | assertion
  /-- an operation with undefined behaviour (shift of an `int` by 31 or more) -/
  | undefined
  /-- the iteration bound of a loop was exhausted -/
  | fuel
deriving DecidableEq, Repr

deriving instance DecidableEq for Except

/-- `struct BigInt`: digits least significant first, and a sign flag. -/
structure BigInt where
  digits : List Nat
  is_negative : Bool
deriving DecidableEq, Repr

/-- `enum Cmp`. -/
inductive Cmp where
  | CmpLT
  | CmpGT
  | CmpEQ
deriving DecidableEq, Repr

/-- `ZigList::at`: bounds-asserted element access. -/
def list_at (l : List Nat) (i : Nat) : Except Fault Nat :=
  if i < l.length then .ok (l.getD i 0) else .error Fault.assertion

/-- `ZigList::items[i]`: raw element access, without a length test, into a buffer holding the
words `l`. An index outside the buffer is reported as `Fault.outOfBounds`. Where the buffer of
an operand may hold words behind its digits, the caller passes the digits followed by those
words (see `bigint_add_mem`). -/
def list_items (l : List Nat) (i : Nat) : Except Fault Nat :=
  if i < l.length then .ok (l.getD i 0) else .error Fault.outOfBounds

/-- Subtraction of two `size_t` values, wrapping modulo `2 ^ 64`. -/
def size_sub (a b : Nat) : Nat := (a % WORD + (WORD - b % WORD)) % WORD

/-! ## Mathematical reading of a value -/

/-- Magnitude denoted by a digit list (least significant first). -/
def mag : List Nat → Nat
  | [] => 0
  | d :: ds => d + WORD * mag ds

/-- Integer denoted by a `BigInt`. -/
def value (a : BigInt) : Int :=
  if a.is_negative then -(mag a.digits : Int) else (mag a.digits : Int)

/-- Every digit is a 64-bit word. -/
def words (ds : List Nat) : Prop := ∀ d ∈ ds, d < WORD

instance (ds : List Nat) : Decidable (words ds) := by
  unfold words; infer_instance

/-- Canonical form: digits are words, the most significant digit (if any) is nonzero,
and the empty digit list carries a false sign flag. -/
def normalized (a : BigInt) : Prop :=
  words a.digits ∧ a.digits.getLast? ≠ some 0 ∧ (a.digits = [] → a.is_negative = false)

instance (a : BigInt) : Decidable (normalized a) := by
  unfold normalized; infer_instance

/-- Spec-side trimming: the digit list without its most significant zero words. -/
def drop_trailing_zeros : List Nat → List Nat
  | [] => []
  | d :: ds =>
    match drop_trailing_zeros ds with
    | [] => if d = 0 then [] else [d]
    | r :: rs => d :: r :: rs

/-! ## Normalization and constructors -/

/-- The `for` loop of `bigint_normalize`: `i` runs over the digits, `last` is
`last_nonzero_digit`. -/
def last_nonzero_scan : List Nat → Nat → Nat → Nat
  | [], _, last => last
  | digit :: rest, i, last => last_nonzero_scan rest (i + 1) (if digit ≠ 0 then i else last)

/-- `bigint_normalize`. -/
def bigint_normalize (dest : BigInt) : BigInt :=
  let last_nonzero_digit := last_nonzero_scan dest.digits 0 SIZE_MAX
  if last_nonzero_digit = SIZE_MAX then
    { digits := [], is_negative := false }
  else
    { digits := dest.digits.take (last_nonzero_digit + 1), is_negative := dest.is_negative }

/-- `bigint_init_unsigned`. -/
def bigint_init_unsigned (x : Nat) : BigInt :=
  bigint_normalize { digits := [x], is_negative := false }

/-- `bigint_init_signed`; `x` is an `int64_t`. The digit of a negative `x` is
`((uint64_t)(-(x + 1))) + 1`. -/
def bigint_init_signed (x : Int) : BigInt :=
  if x ≥ 0 then bigint_init_unsigned x.toNat
  else bigint_normalize { digits := [((-(x + 1)).toNat % WORD + 1) % WORD], is_negative := true }

/-- `bigint_init_bigint`: digit-by-digit copy. -/
def bigint_init_bigint (src : BigInt) : BigInt :=
  { digits := src.digits.map (fun digit => digit), is_negative := src.is_negative }

/-- `bigint_negate`. -/
def bigint_negate (op : BigInt) : BigInt :=
  let dest := bigint_init_bigint op
  bigint_normalize { dest with is_negative := !dest.is_negative }

/-! ## Comparison -/

/-- The digit loop of `bigint_cmp`, entered at `i = digits.length - 1` and counting down. -/
def cmp_loop (op1 op2 : BigInt) (i : Nat) : Except Fault Cmp := do
  let op1_digit ← list_at op1.digits i
  let op2_digit ← list_at op2.digits i
  if op1_digit > op2_digit then
    pure (if op1.is_negative then Cmp.CmpLT else Cmp.CmpGT)
  else
    match i with
    | 0 => pure Cmp.CmpEQ
    | j + 1 => cmp_loop op1 op2 j

/-- `bigint_cmp`. -/
def bigint_cmp (op1 op2 : BigInt) : Except Fault Cmp :=
  if op1.is_negative && !op2.is_negative then
    pure Cmp.CmpLT
  else if !op1.is_negative && op2.is_negative then
    pure Cmp.CmpGT
  else if op1.digits.length > op2.digits.length then
    pure (if op1.is_negative then Cmp.CmpLT else Cmp.CmpGT)
  else if op2.digits.length > op1.digits.length then
    pure (if op1.is_negative then Cmp.CmpGT else Cmp.CmpLT)
  else if op1.digits.length = 0 then
    pure Cmp.CmpEQ
  else
    cmp_loop op1 op2 (op1.digits.length - 1)

/-! ## Addition and subtraction -/

/-- `__builtin_uaddll_overflow(x, y, &x)`: the wrapped sum, and whether it wrapped. -/
def uaddll_overflow (x y : Nat) : Nat × Bool :=
  ((x + y) % WORD, decide (WORD ≤ x + y))

/-- `__builtin_usubll_overflow(x, y, &x)`: the wrapped difference, and whether it wrapped. -/
def usubll_overflow (x y : Nat) : Nat × Bool :=
  ((x + WORD - y) % WORD, decide (x < y))

/-- One iteration of the same-sign loop of `bigint_add` at index `i` with incoming
`overflow`: the digit `x` to append, the outgoing `overflow`, and `found_digit`. -/
def add_same_step (op1 op2 : BigInt) (i overflow : Nat) : Except Fault (Nat × Nat × Bool) := do
  let x := overflow
  let overflow := 0
  let (found_digit, x, overflow) ←
    if i < op1.digits.length then do
      let digit ← list_at op1.digits i
      let r := uaddll_overflow x digit
      pure (true, r.1, if r.2 then overflow + 1 else overflow)
    else
      pure (false, x, overflow)
  let (found_digit, x, overflow) ←
    if i < op2.digits.length then do
      let digit ← list_at op2.digits i
      let r := uaddll_overflow x digit
      pure (true, r.1, if r.2 then overflow + 1 else overflow)
    else
      pure (found_digit, x, overflow)
  pure (x, overflow, found_digit)

/-- The same-sign loop of `bigint_add`: returns the digits of `dest` and the final `overflow`. -/
def add_same_loop (op1 op2 : BigInt) :
    Nat → Nat → Nat → List Nat → Except Fault (List Nat × Nat)
  | 0, _, _, _ => .error Fault.fuel
  | fuel + 1, i, overflow, dest => do
    let (x, overflow, found_digit) ← add_same_step op1 op2 i overflow
    let dest := dest ++ [x]
    if !found_digit then
      pure (dest, overflow)
    else
      add_same_loop op1 op2 fuel (i + 1) overflow dest

/-- One iteration of the differing-sign loop of `bigint_add`. The digit of `bigger_op` is
read with `items[i]`, without a length test: `bigger_op.digits` is the buffer it reads. -/
def add_diff_step (bigger_op smaller_op : BigInt) (i overflow : Nat) :
    Except Fault (Nat × Nat × Bool) := do
  let x ← list_items bigger_op.digits i
  let prev_overflow := overflow
  let overflow := 0
  let (found_digit, x, overflow) ←
    if i < smaller_op.digits.length then do
      let digit ← list_items smaller_op.digits i
      let r := usubll_overflow x digit
      pure (true, r.1, if r.2 then overflow + 1 else overflow)
    else
      pure (false, x, overflow)
  let r := usubll_overflow x prev_overflow
  if r.2 then
    pure (r.1, overflow + 1, true)
  else
    pure (r.1, overflow, found_digit)

/-- The differing-sign loop of `bigint_add`. -/
def add_diff_loop (bigger_op smaller_op : BigInt) :
    Nat → Nat → Nat → List Nat → Except Fault (List Nat × Nat)
  | 0, _, _, _ => .error Fault.fuel
  | fuel + 1, i, overflow, dest => do
    let (x, overflow, found_digit) ← add_diff_step bigger_op smaller_op i overflow
    let dest := dest ++ [x]
    if !found_digit then
      pure (dest, overflow)
    else
      add_diff_loop bigger_op smaller_op fuel (i + 1) overflow dest

/-- The tail of `bigint_add` after the `switch`: subtraction loop, `assert(overflow == 0)`,
normalization. -/
def add_diff_tail (bigger_op smaller_op : BigInt) (is_negative : Bool) : Except Fault BigInt := do
  let (digits, overflow) ←
    add_diff_loop bigger_op smaller_op (bigger_op.digits.length + 1) 0 0 []
  if overflow ≠ 0 then
    .error Fault.assertion
  else
    pure (bigint_normalize { digits := digits, is_negative := is_negative })

/-- `bigint_add` into a destination distinct from both operands, on operands whose buffers
hold no word behind their digits (`bigint_add_mem` lifts that restriction). -/
def bigint_add (op1 op2 : BigInt) : Except Fault BigInt :=
  if op1.is_negative = op2.is_negative then do
    let (digits, overflow) ←
      add_same_loop op1 op2 (max op1.digits.length op2.digits.length + 1) 0 0 []
    let digits := if overflow > 0 then digits ++ [overflow] else digits
    pure (bigint_normalize { digits := digits, is_negative := op1.is_negative })
  else do
    let op_pos := if op1.is_negative then op2 else op1
    let op_neg := if op1.is_negative then op1 else op2
    let op_neg_abs := bigint_negate op_neg
    match ← bigint_cmp op_pos op_neg_abs with
    | Cmp.CmpEQ => pure (bigint_init_unsigned 0)
    | Cmp.CmpLT => add_diff_tail op_neg_abs op_pos true
    | Cmp.CmpGT => add_diff_tail op_pos op_neg_abs false

/-- `bigint_sub`. -/
def bigint_sub (op1 op2 : BigInt) : Except Fault BigInt :=
  let op2_negated := bigint_negate op2
  bigint_add op1 op2_negated

/-- `bigint_add` into a destination distinct from both operands, with the memory behind the
digits of the operands made explicit: `behind_pos` are the words lying behind the digits of
`op_pos`, `behind_neg_abs` those behind the digits of the local `op_neg_abs`, as many as one
cares to list. The raw reads `bigger_op->digits.items[i]` of the subtraction loop range over
the digits of `bigger_op` followed by these words, and a read of such a word goes on like
any other. -/
def bigint_add_mem (behind_pos behind_neg_abs : List Nat) (op1 op2 : BigInt) :
    Except Fault BigInt :=
  if op1.is_negative = op2.is_negative then do
    let (digits, overflow) ←
      add_same_loop op1 op2 (max op1.digits.length op2.digits.length + 1) 0 0 []
    let digits := if overflow > 0 then digits ++ [overflow] else digits
    pure (bigint_normalize { digits := digits, is_negative := op1.is_negative })
  else do
    let op_pos := if op1.is_negative then op2 else op1
    let op_neg := if op1.is_negative then op1 else op2
    let op_neg_abs := bigint_negate op_neg
    match ← bigint_cmp op_pos op_neg_abs with
    | Cmp.CmpEQ => pure (bigint_init_unsigned 0)
    | Cmp.CmpLT =>
      add_diff_tail { op_neg_abs with digits := op_neg_abs.digits ++ behind_neg_abs } op_pos true
    | Cmp.CmpGT =>
      add_diff_tail { op_pos with digits := op_pos.digits ++ behind_pos } op_neg_abs false

/-- `bigint_sub` on operands whose buffers may hold words behind their digits. -/
def bigint_sub_mem (behind_pos behind_neg_abs : List Nat) (op1 op2 : BigInt) :
    Except Fault BigInt :=
  let op2_negated := bigint_negate op2
  bigint_add_mem behind_pos behind_neg_abs op1 op2_negated

/-! ## Multiplication -/

/-- Modelled from the spec: the body of `mul_overflow` is absent from the source; it is the
128-bit product of two words split into its low 64-bit word and its high 64-bit carry word. -/
def mul_overflow (op1 op2 : Nat) : Nat × Nat :=
  ((op1 * op2) % WORD, (op1 * op2) / WORD)

/-- One iteration of the loop of `bigint_mul`, for a given `mul_overflow`. -/
def mul_step (mo : Nat → Nat → Nat × Nat) (op1 op2 : BigInt) (i carry : Nat) :
    Except Fault (Nat × Nat × Bool) := do
  let prev_carry := carry
  let carry := 0
  let (found_digit, x, carry) ←
    if i < op1.digits.length ∧ i < op2.digits.length then do
      let digit1 ← list_at op1.digits i
      let digit2 ← list_at op2.digits i
      let r := mo digit1 digit2
      pure (true, r.1, r.2)
    else
      pure (false, 0, carry)
  if prev_carry > 0 then
    let r := uaddll_overflow x prev_carry
    pure (r.1, (if r.2 then (carry + 1) % WORD else carry), true)
  else
    pure (x, carry, found_digit)

/-- The loop of `bigint_mul`. -/
def mul_loop (mo : Nat → Nat → Nat × Nat) (op1 op2 : BigInt) :
    Nat → Nat → Nat → List Nat → Except Fault (List Nat × Nat)
  | 0, _, _, _ => .error Fault.fuel
  | fuel + 1, i, carry, dest => do
    let (x, carry, found_digit) ← mul_step mo op1 op2 i carry
    let dest := dest ++ [x]
    if !found_digit then
      pure (dest, carry)
    else
      mul_loop mo op1 op2 fuel (i + 1) carry dest

/-- `bigint_mul` for a given `mul_overflow`, into a destination distinct from the operands. -/
def bigint_mul_with (mo : Nat → Nat → Nat × Nat) (op1 op2 : BigInt) : Except Fault BigInt := do
  let (digits, carry) ←
    mul_loop mo op1 op2 (min op1.digits.length op2.digits.length + 2) 0 0 []
  let digits := if carry > 0 then digits ++ [carry] else digits
  pure (bigint_normalize
    { digits := digits, is_negative := (op1.is_negative != op2.is_negative) })

/-- `bigint_mul`. -/
def bigint_mul (op1 op2 : BigInt) : Except Fault BigInt :=
  bigint_mul_with mul_overflow op1 op2

/-! ## Bit access and the two's-complement bridge -/

/-- `bit_at_index`. The digit index is computed in `size_t`, so it wraps when
`index / 64 + 1` exceeds the digit count; `digits.at` then rejects it. -/
def bit_at_index (bi : BigInt) (index : Nat) : Except Fault Bool := do
  let digit_index := size_sub (size_sub bi.digits.length (index / 64)) 1
  let digit_bit_index := index % 64
  let digit ← list_at bi.digits digit_index
  pure (decide (((digit >>> digit_bit_index) &&& 1) = 1))

/-- Bitwise complement `~digit` of a 64-bit word. -/
def word_not (digit : Nat) : Nat := WORD - 1 - digit % WORD

/-- The expression `(1 << digit_bit_index) - 1` of `bigint_not`, evaluated in `int` and then
converted to `uint64_t`. From a shift count of 31 on, the `int` arithmetic overflows. -/
def int_mask (digit_bit_index : Nat) : Except Fault Nat :=
  if digit_bit_index < 31 then .ok (2 ^ digit_bit_index - 1) else .error Fault.undefined

/-- The non-negative branch of `bigint_not`. -/
def not_nonneg (op : BigInt) (bit_count : Nat) : Except Fault BigInt := do
  let digits := op.digits.map word_not
  let digit_index := size_sub (size_sub digits.length (bit_count / 64)) 1
  let digit_bit_index := bit_count % 64
  let digits ←
    if digit_index < digits.length then do
      let mask ← int_mask digit_bit_index
      let digit ← list_items digits digit_index
      pure (digits.set digit_index (digit &&& mask))
    else
      pure digits
  pure (bigint_normalize { digits := digits, is_negative := false })

mutual

/-- `to_twos_complement`, with a bound `depth` on the nesting of calls. -/
def to_twos_complement_rec : Nat → BigInt → Nat → Except Fault BigInt
  | 0, _, _ => .error Fault.fuel
  | depth + 1, src, bit_count =>
    if src.is_negative then do
      let negated := bigint_negate src
      let inverted ← bigint_not_rec depth negated bit_count
      let one := bigint_init_unsigned 1
      bigint_add inverted one
    else
      pure (bigint_init_bigint src)

/-- `from_twos_complement`, with a bound `depth` on the nesting of calls. -/
def from_twos_complement_rec : Nat → BigInt → Nat → Except Fault BigInt
  | 0, _, _ => .error Fault.fuel
  | depth + 1, src, bit_count =>
    if src.is_negative then
      .error Fault.assertion
    else if bit_count = 0 then
      pure (bigint_init_unsigned 0)
    else do
      if (← bit_at_index src (bit_count - 1)) then
        let negative_one := bigint_init_signed (-1)
        let minus_one ← bigint_add src negative_one
        let inverted ← bigint_not_rec depth minus_one bit_count
        pure (bigint_negate inverted)
      else
        pure (bigint_init_bigint src)

/-- `bigint_not`, with a bound `depth` on the nesting of calls. -/
def bigint_not_rec : Nat → BigInt → Nat → Except Fault BigInt
  | 0, _, _ => .error Fault.fuel
  | depth + 1, op, bit_count =>
    if bit_count = 0 then
      pure (bigint_init_unsigned 0)
    else if op.is_negative then do
      let twos_comp ← to_twos_complement_rec depth op bit_count
      let inverted ← bigint_not_rec depth twos_comp bit_count
      from_twos_complement_rec depth inverted bit_count
    else
      not_nonneg op bit_count

end

/-- Nesting bound handed to the bridge functions. The deepest chain of calls is
`bigint_not`, then `to_twos_complement` or `from_twos_complement`, then `bigint_not` on a
non-negative operand. -/
def CALL_DEPTH : Nat := 4

/-- `to_twos_complement`. -/
def to_twos_complement (src : BigInt) (bit_count : Nat) : Except Fault BigInt :=
  to_twos_complement_rec CALL_DEPTH src bit_count

/-- `from_twos_complement`. -/
def from_twos_complement (src : BigInt) (bit_count : Nat) : Except Fault BigInt :=
  from_twos_complement_rec CALL_DEPTH src bit_count

/-- `bigint_not`. -/
def bigint_not (op : BigInt) (bit_count : Nat) : Except Fault BigInt :=
  bigint_not_rec CALL_DEPTH op bit_count

/-- The composition the round-trip property speaks of: `to_twos_complement` and then
`from_twos_complement` at the same width. -/
def twos_complement_round_trip (a : BigInt) (bit_count : Nat) : Except Fault BigInt := do
  let bits ← to_twos_complement a bit_count
  from_twos_complement bits bit_count

/-- `bigint_truncate`, with a bound `depth` on the nesting of calls. The first argument is
the content of `*dest` before the call, the result its content after the call. The branch
for a non-negative operand is empty in the source. -/
def bigint_truncate_rec : Nat → BigInt → BigInt → Nat → Except Fault BigInt
  | 0, _, _, _ => .error Fault.fuel
  | depth + 1, dest, op, bit_count =>
    if bit_count = 0 then
      pure (bigint_init_unsigned 0)
    else if op.is_negative then do
      let twos_comp ← to_twos_complement op bit_count
      let truncated ← bigint_truncate_rec depth { digits := [], is_negative := false }
        twos_comp bit_count
      from_twos_complement truncated bit_count
    else
      pure dest

/-- `bigint_truncate`. -/
def bigint_truncate (dest op : BigInt) (bit_count : Nat) : Except Fault BigInt :=
  bigint_truncate_rec CALL_DEPTH dest op bit_count

/-! ## Leading zeros and range checks -/

/-- The loop of `bigint_clz`, entered at `i = bit_count - 1` and counting down. -/
def clz_loop (bi : BigInt) (i count : Nat) : Except Fault Nat := do
  if (← bit_at_index bi i) then
    pure count
  else
    match i with
    | 0 => pure (count + 1)
    | j + 1 => clz_loop bi j (count + 1)

/-- `bigint_clz`. -/
def bigint_clz (bi : BigInt) (bit_count : Nat) : Except Fault Nat :=
  if bi.is_negative ∨ bi.digits.length = 0 ∨ bit_count = 0 then
    pure 0
  else
    clz_loop bi (bit_count - 1) 0

/-- The loop of `bigint_ctz`; `remaining` is `bit_count - i`. -/
def ctz_loop (twos_comp : BigInt) : Nat → Nat → Nat → Except Fault Nat
  | 0, _, count => pure count
  | remaining + 1, i, count => do
    if (← bit_at_index twos_comp i) then
      pure count
    else
      ctz_loop twos_comp remaining (i + 1) (count + 1)

/-- `bigint_ctz`. -/
def bigint_ctz (bi : BigInt) (bit_count : Nat) : Except Fault Nat :=
  if bi.digits.length = 0 ∨ bit_count = 0 then
    pure 0
  else do
    let twos_comp ← to_twos_complement bi bit_count
    ctz_loop twos_comp bit_count 0 0

/-- Digits of a natural number, least significant first; `fuel` bounds the digit count. -/
def nat_digits : Nat → Nat → List Nat
  | 0, _ => []
  | fuel + 1, n => if n = 0 then [] else (n % WORD) :: nat_digits fuel (n / WORD)

/-- Modelled from the spec: the body of `bigint_shl` is absent from the source. The exact
left shift multiplies the value of `op1` by two to the power of `op2`, and the result is
normalized. A negative shift count, on which the spec is silent, is reported as a fault. -/
def bigint_shl (op1 op2 : BigInt) : Except Fault BigInt :=
  if op2.is_negative then
    .error Fault.undefined
  else
    let m := mag op1.digits * 2 ^ mag op2.digits
    pure (bigint_normalize { digits := nat_digits m m, is_negative := op1.is_negative })

/-- `bigint_fits_in_bits`. -/
def bigint_fits_in_bits (bn : BigInt) (bit_count : Nat) (is_signed : Bool) : Except Fault Bool :=
  if bit_count = 0 then do
    let zero := bigint_init_unsigned 0
    let c ← bigint_cmp bn zero
    pure (decide (c = Cmp.CmpEQ))
  else if !is_signed then do
    let full_bits := (bn.digits.length * 64) % WORD
    let leading_zero_count ← bigint_clz bn full_bits
    pure (decide (bit_count ≥ size_sub full_bits leading_zero_count))
  else do
    let one := bigint_init_unsigned 1
    let shl_amt := bigint_init_unsigned (bit_count - 1)
    let max_value_plus_one ← bigint_shl one shl_amt
    let max_value ← bigint_sub max_value_plus_one one
    let min_value := bigint_negate max_value_plus_one
    let min_cmp ← bigint_cmp bn min_value
    let max_cmp ← bigint_cmp bn max_value
    pure ((decide (min_cmp = Cmp.CmpGT) || decide (min_cmp = Cmp.CmpEQ)) &&
      (decide (max_cmp = Cmp.CmpLT) || decide (max_cmp = Cmp.CmpEQ)))

/-! ## Addition with the destination aliasing `op1` -/

/-- The same-sign loop of `bigint_add` when `dest` and `op1` are one object. After
`dest->digits.resize(0)` every access to `op1->digits` sees the digits appended so far. -/
def add_same_loop_aliased (op1_is_negative : Bool) (op2 : BigInt) :
    Nat → Nat → Nat → List Nat → Except Fault (List Nat × Nat)
  | 0, _, _, _ => .error Fault.fuel
  | fuel + 1, i, overflow, dest => do
    let (x, overflow, found_digit) ←
      add_same_step { digits := dest, is_negative := op1_is_negative } op2 i overflow
    let dest := dest ++ [x]
    if !found_digit then
      pure (dest, overflow)
    else
      add_same_loop_aliased op1_is_negative op2 fuel (i + 1) overflow dest

/-- The differing-sign loop of `bigint_add` when `dest` is also `smaller_op`: after
`dest->digits.resize(0)` the test `i < smaller_op->digits.length` compares `i` with the
number of digits appended so far. -/
def add_diff_loop_aliased (bigger_op : BigInt) :
    Nat → Nat → Nat → List Nat → Except Fault (List Nat × Nat)
  | 0, _, _, _ => .error Fault.fuel
  | fuel + 1, i, overflow, dest => do
    let (x, overflow, found_digit) ←
      add_diff_step bigger_op { digits := dest, is_negative := false } i overflow
    let dest := dest ++ [x]
    if !found_digit then
      pure (dest, overflow)
    else
      add_diff_loop_aliased bigger_op fuel (i + 1) overflow dest

/-- `bigint_add(dest, op1, op2)` called with `dest == op1` (and `op2` a distinct object):
the content of that object after the call, for buffers holding no word behind the digits.
The comparison and the copy `op_neg_abs` are made before `dest` is written. When `dest` is
`bigger_op`, each raw read `items[i]` comes before the append that overwrites index `i`, so
it still sees the digit `op1` held; when `dest` is `smaller_op`, its length is what the loop
tests. -/
def bigint_add_aliased (op1 op2 : BigInt) : Except Fault BigInt :=
  if op1.is_negative = op2.is_negative then do
    let (digits, overflow) ← add_same_loop_aliased op1.is_negative op2
      (max op1.digits.length op2.digits.length + 1) 0 0 []
    let digits := if overflow > 0 then digits ++ [overflow] else digits
    pure (bigint_normalize { digits := digits, is_negative := op1.is_negative })
  else if op1.is_negative then do
    let op_neg_abs := bigint_negate op1
    match ← bigint_cmp op2 op_neg_abs with
    | Cmp.CmpEQ => pure (bigint_init_unsigned 0)
    | Cmp.CmpLT => add_diff_tail op_neg_abs op2 true
    | Cmp.CmpGT => add_diff_tail op2 op_neg_abs false
  else do
    let op_neg_abs := bigint_negate op2
    match ← bigint_cmp op1 op_neg_abs with
    | Cmp.CmpEQ => pure (bigint_init_unsigned 0)
    | Cmp.CmpLT => do
      let (digits, overflow) ←
        add_diff_loop_aliased op_neg_abs (op_neg_abs.digits.length + 1) 0 0 []
      if overflow ≠ 0 then
        .error Fault.assertion
      else
        pure (bigint_normalize { digits := digits, is_negative := true })
    | Cmp.CmpGT => add_diff_tail op1 op_neg_abs false

/-! ## Fixed-width serialization -/

/-- The store `buf[i] = byte` into a caller's buffer of `buf.length` bytes. -/
def buf_store (buf : List Nat) (i byte : Nat) : Except Fault (List Nat) :=
  if i < buf.length then .ok (buf.set i byte) else .error Fault.outOfBounds

/-- The load `buf[i]` from a caller's buffer of `buf.length` bytes. -/
def buf_load (buf : List Nat) (i : Nat) : Except Fault Nat :=
  if i < buf.length then .ok (buf.getD i 0) else .error Fault.outOfBounds

/-- The digit `twos_comp.digits.items[digit_index]`, or `0` from the digit count on. -/
def digit_or_zero (twos_comp : BigInt) (digit_index : Nat) : Nat :=
  if digit_index < twos_comp.digits.length then twos_comp.digits.getD digit_index 0 else 0

/-- The inner loop of the big-endian branch of `bigint_write_twos_complement`, entered at
`byte_index = 7` and counting down. The index of the store into the last digit's bytes is a
`size_t` difference. -/
def write_be_bytes (is_last_digit : Bool) (buf_index unwritten_byte_count : Nat)
    (byte_index x : Nat) (buf : List Nat) : Except Fault (List Nat) := do
  let byte := x % 256
  if is_last_digit then
    let buf ← buf_store buf
      (size_sub ((buf_index + byte_index) % WORD) unwritten_byte_count) byte
    if byte_index = unwritten_byte_count then
      pure buf
    else
      match byte_index with
      | 0 => pure buf
      | j + 1 => write_be_bytes is_last_digit buf_index unwritten_byte_count j (x >>> 8) buf
  else
    let buf ← buf_store buf (buf_index + byte_index) byte
    match byte_index with
    | 0 => pure buf
    | j + 1 => write_be_bytes is_last_digit buf_index unwritten_byte_count j (x >>> 8) buf

/-- The outer loop of the big-endian branch, entered at `digit_index = last_digit_index`
and counting down. -/
def write_be_digits (twos_comp : BigInt)
    (last_digit_index bytes_in_last_digit unwritten_byte_count : Nat)
    (digit_index buf_index : Nat) (buf : List Nat) : Except Fault (List Nat) := do
  let x := digit_or_zero twos_comp digit_index
  let buf ← write_be_bytes (decide (digit_index = last_digit_index)) buf_index
    unwritten_byte_count 7 x buf
  match digit_index with
  | 0 => pure buf
  | j + 1 =>
    let buf_index :=
      if j = last_digit_index then buf_index + bytes_in_last_digit else buf_index + 8
    write_be_digits twos_comp last_digit_index bytes_in_last_digit unwritten_byte_count
      j buf_index buf

/-- The inner loop of the little-endian branch; `remaining` is `8 - byte_index`. Returns the
buffer and `buf_index`. -/
def write_le_bytes (unwritten_byte_count : Nat) :
    Nat → Nat → Nat → List Nat → Except Fault (List Nat × Nat)
  | 0, _, buf_index, buf => pure (buf, buf_index)
  | remaining + 1, x, buf_index, buf => do
    let byte := x % 256
    let buf ← buf_store buf buf_index byte
    let buf_index := buf_index + 1
    if buf_index ≥ unwritten_byte_count then
      pure (buf, buf_index)
    else
      write_le_bytes unwritten_byte_count remaining (x >>> 8) buf_index buf

/-- The outer loop of the little-endian branch; `remaining` is `digit_count - digit_index`. -/
def write_le_digits (twos_comp : BigInt) (unwritten_byte_count : Nat) :
    Nat → Nat → Nat → List Nat → Except Fault (List Nat)
  | 0, _, _, buf => pure buf
  | remaining + 1, digit_index, buf_index, buf => do
    let x := digit_or_zero twos_comp digit_index
    let (buf, buf_index) ← write_le_bytes unwritten_byte_count 8 x buf_index buf
    write_le_digits twos_comp unwritten_byte_count remaining (digit_index + 1) buf_index buf

/-- `bigint_write_twos_complement`: the caller's buffer after the call. -/
def bigint_write_twos_complement (big_int : BigInt) (buf : List Nat) (is_big_endian : Bool)
    (bit_count : Nat) : Except Fault (List Nat) :=
  if bit_count = 0 then
    pure buf
  else do
    let twos_comp ← to_twos_complement big_int bit_count
    let bits_in_last_digit := bit_count % 64
    let bytes_in_last_digit := (bits_in_last_digit + 7) / 8
    let unwritten_byte_count := 8 - bytes_in_last_digit
    if is_big_endian then
      let last_digit_index := (bit_count - 1) / 64
      write_be_digits twos_comp last_digit_index bytes_in_last_digit unwritten_byte_count
        last_digit_index 0 buf
    else
      let digit_count := (bit_count + 63) / 64
      write_le_digits twos_comp unwritten_byte_count digit_count 0 0 buf

/-- The inner loop of the little-endian branch of `bigint_read_twos_complement`;
`remaining` is `end_byte_index - byte_index`. Returns `digit` and `buf_index`. -/
def read_le_bytes (buf : List Nat) : Nat → Nat → Nat → Except Fault (Nat × Nat)
  | 0, digit, buf_index => pure (digit, buf_index)
  | remaining + 1, digit, buf_index => do
    let byte ← buf_load buf buf_index
    let buf_index := buf_index + 1
    let digit := (digit * 256) % WORD
    let digit := digit ||| byte
    read_le_bytes buf remaining digit buf_index

/-- The outer loop of the little-endian branch; `remaining` is `digit_count - digit_index`,
`digits` the digits stored so far. -/
def read_le_digits (buf : List Nat) (digit_count bytes_in_last_digit : Nat) :
    Nat → Nat → Nat → List Nat → Except Fault (List Nat)
  | 0, _, _, digits => pure digits
  | remaining + 1, digit_index, buf_index, digits => do
    let end_byte_index := if digit_index = digit_count - 1 then bytes_in_last_digit else 8
    let (digit, buf_index) ← read_le_bytes buf end_byte_index 0 buf_index
    read_le_digits buf digit_count bytes_in_last_digit remaining (digit_index + 1) buf_index
      (digits ++ [digit])

/-- Modelled from the spec: the big-endian branch of `bigint_read_twos_complement` is absent
from the source. It deserializes `ceil(bit_count / 8)` bytes stored most significant first,
masked to `bit_count` bits, into `digit_count` digits. -/
def read_be_digits (buf : List Nat) (bit_count digit_count : Nat) : Except Fault (List Nat) :=
  let byte_count := (bit_count + 7) / 8
  if buf.length < byte_count then
    .error Fault.outOfBounds
  else
    let v := ((buf.take byte_count).foldl (fun acc byte => acc * 256 + byte) 0) % 2 ^ bit_count
    let digits := nat_digits v v
    pure (digits ++ List.replicate (digit_count - digits.length) 0)

/-- `bigint_read_twos_complement`. The first argument is the content of `*dest` before the
call; on the signed path its sign flag is still in place when `dest` is normalized. -/
def bigint_read_twos_complement (dest : BigInt) (buf : List Nat) (bit_count : Nat)
    (is_big_endian is_signed : Bool) : Except Fault BigInt :=
  if bit_count = 0 then
    pure (bigint_init_unsigned 0)
  else do
    let digit_count := (bit_count + 63) / 64
    let bits_in_last_digit := bit_count % 64
    let bytes_in_last_digit := (bits_in_last_digit + 7) / 8
    let digits ←
      if is_big_endian then
        read_be_digits buf bit_count digit_count
      else
        read_le_digits buf digit_count bytes_in_last_digit digit_count 0 0 []
    if is_signed then
      let dest := bigint_normalize { digits := digits, is_negative := dest.is_negative }
      let tmp := bigint_init_bigint dest
      from_twos_complement tmp bit_count
    else
      pure (bigint_normalize { digits := digits, is_negative := false })

/-- The composition the serialization round trip speaks of: write into a zeroed buffer of
`ceil(bit_count / 8)` bytes, then read back into a fresh destination with the same width
and byte order. -/
def serialization_round_trip (v : BigInt) (bit_count : Nat) (is_big_endian is_signed : Bool) :
    Except Fault BigInt := do
  let buf ← bigint_write_twos_complement v (List.replicate ((bit_count + 7) / 8) 0)
    is_big_endian bit_count
  bigint_read_twos_complement { digits := [], is_negative := false } buf bit_count
    is_big_endian is_signed

/-! ## Digit characters -/

/-- `digit_to_char`; `digit` is a `uint8_t` and so is the result. `none` stands for reaching
`zig_unreachable()`. -/
def digit_to_char (digit : Nat) (uppercase : Bool) : Option Nat :=
  if digit ≥ 0 ∧ digit ≤ 9 then
    some ((digit + '0'.toNat) % 256)
  else if digit ≥ 10 ∧ digit ≤ 35 then
    some ((digit + (if uppercase then 'A'.toNat else 'a'.toNat)) % 256)
  else
    none

/-- Spec-side digit map: the base-36 digit character of `d` (for `d ≤ 35`), `0` to `9` and
then the letters from `a`, or from `A` when `uppercase` is set. -/
def base36_digit_char (d : Nat) (uppercase : Bool) : Nat :=
  if d ≤ 9 then '0'.toNat + d
  else (if uppercase then 'A'.toNat else 'a'.toNat) + (d - 10)

/-! ## Normalization: proofs -/

theorem drop_trailing_zeros_cons (d : Nat) (ds : List Nat) :
    drop_trailing_zeros (d :: ds) =
      if drop_trailing_zeros ds = [] ∧ d = 0 then [] else d :: drop_trailing_zeros ds := by
  simp only [drop_trailing_zeros]
  cases h : drop_trailing_zeros ds with
  | nil => by_cases hd : d = 0 <;> simp [hd]
  | cons r rs => simp

theorem drop_trailing_zeros_length_le (ds : List Nat) :
    (drop_trailing_zeros ds).length ≤ ds.length := by
  induction ds with
  | nil => simp [drop_trailing_zeros]
  | cons d ds ih =>
    rw [drop_trailing_zeros_cons]
    split
    · simp
    · simpa using ih

theorem drop_trailing_zeros_append (ds : List Nat) :
    ∃ k, ds = drop_trailing_zeros ds ++ List.replicate k 0 := by
  induction ds with
  | nil => exact ⟨0, by simp [drop_trailing_zeros]⟩
  | cons d ds ih =>
    obtain ⟨k, hk⟩ := ih
    rw [drop_trailing_zeros_cons]
    split
    · rename_i h
      refine ⟨k + 1, ?_⟩
      rw [h.1] at hk
      rw [hk, h.2]
      simp [List.replicate_succ]
    · refine ⟨k, ?_⟩
      rw [List.cons_append, ← hk]

theorem drop_trailing_zeros_getLast (ds : List Nat) :
    (drop_trailing_zeros ds).getLast? ≠ some 0 := by
  induction ds with
  | nil => simp [drop_trailing_zeros]
  | cons d ds ih =>
    rw [drop_trailing_zeros_cons]
    split
    · simp
    · rename_i h
      cases hr : drop_trailing_zeros ds with
      | nil =>
        rw [hr] at h
        simp only [true_and] at h
        simpa using h
      | cons r rs =>
        rw [hr] at ih
        simpa [List.getLast?_cons_cons] using ih

theorem drop_trailing_zeros_of_getLast (ds : List Nat) (h : ds.getLast? ≠ some 0) :
    drop_trailing_zeros ds = ds := by
  induction ds with
  | nil => rfl
  | cons d ds ih =>
    rw [drop_trailing_zeros_cons]
    cases ds with
    | nil =>
      have hd : d ≠ 0 := by simpa using h
      simp [drop_trailing_zeros, hd]
    | cons e es =>
      have h2 : (e :: es).getLast? ≠ some 0 := by simpa [List.getLast?_cons_cons] using h
      rw [ih h2]
      simp

theorem last_nonzero_scan_eq (ds : List Nat) : ∀ i last : Nat,
    last_nonzero_scan ds i last =
      if drop_trailing_zeros ds = [] then last else i + (drop_trailing_zeros ds).length - 1 := by
  induction ds with
  | nil => intro i last; simp [last_nonzero_scan, drop_trailing_zeros]
  | cons d ds ih =>
    intro i last
    rw [last_nonzero_scan, ih, drop_trailing_zeros_cons]
    by_cases hr : drop_trailing_zeros ds = []
    · by_cases hd : d = 0
      · simp [hr, hd]
      · simp [hr, hd]
    · have hpos : 0 < (drop_trailing_zeros ds).length := List.length_pos.mpr hr
      simp only [hr, false_and, if_false, List.length_cons]
      simp only [reduceCtorEq, if_false]
      omega

theorem drop_trailing_zeros_take (ds : List Nat) :
    ds.take (drop_trailing_zeros ds).length = drop_trailing_zeros ds := by
  obtain ⟨k, hk⟩ := drop_trailing_zeros_append ds
  have h : ds.take (drop_trailing_zeros ds).length =
      (drop_trailing_zeros ds ++ List.replicate k 0).take (drop_trailing_zeros ds).length := by
    rw [← hk]
  rw [h]
  simp

/-- What `bigint_normalize` computes, in terms of the spec-side trimming. -/
theorem bigint_normalize_eq (ds : List Nat) (s : Bool) (hlen : ds.length ≤ SIZE_MAX) :
    bigint_normalize { digits := ds, is_negative := s } =
      { digits := drop_trailing_zeros ds,
        is_negative := if drop_trailing_zeros ds = [] then false else s } := by
  unfold bigint_normalize
  simp only [last_nonzero_scan_eq]
  by_cases hr : drop_trailing_zeros ds = []
  · simp [hr]
  · have hpos : 0 < (drop_trailing_zeros ds).length := List.length_pos.mpr hr
    have hle := drop_trailing_zeros_length_le ds
    have hne : 0 + (drop_trailing_zeros ds).length - 1 ≠ SIZE_MAX := by omega
    have hsucc : 0 + (drop_trailing_zeros ds).length - 1 + 1 = (drop_trailing_zeros ds).length := by
      omega
    simp only [hr, if_false, hne, hsucc, drop_trailing_zeros_take]

theorem mag_append (p q : List Nat) : mag (p ++ q) = mag p + WORD ^ p.length * mag q := by
  induction p with
  | nil => simp [mag]
  | cons d p ih =>
    rw [List.cons_append, mag, ih, mag, List.length_cons, pow_succ]
    ring

theorem mag_replicate_zero (k : Nat) : mag (List.replicate k 0) = 0 := by
  induction k with
  | zero => rfl
  | succ k ih => simp [List.replicate_succ, mag, ih]

theorem mag_pos_of_getLast (q : List Nat) (hne : q ≠ []) (h : q.getLast? ≠ some 0) :
    0 < mag q := by
  induction q with
  | nil => exact absurd rfl hne
  | cons d q ih =>
    cases q with
    | nil =>
      have hd : d ≠ 0 := by simpa using h
      simp only [mag]
      omega
    | cons e es =>
      have h2 : (e :: es).getLast? ≠ some 0 := by simpa [List.getLast?_cons_cons] using h
      have := ih (by simp) h2
      have hW : 0 < WORD := by decide
      have := Nat.mul_pos hW this
      simp only [mag] at *
      omega

theorem mag_drop_trailing_zeros (ds : List Nat) : mag (drop_trailing_zeros ds) = mag ds := by
  obtain ⟨k, hk⟩ := drop_trailing_zeros_append ds
  conv_rhs => rw [hk]
  rw [mag_append, mag_replicate_zero]
  simp

theorem drop_trailing_zeros_shortest (ds p : List Nat) (hp : p <+: ds)
    (hmag : mag p = mag ds) : (drop_trailing_zeros ds).length ≤ p.length := by
  by_contra hlt
  push_neg at hlt
  have hr : drop_trailing_zeros ds <+: ds := by
    obtain ⟨k, hk⟩ := drop_trailing_zeros_append ds
    exact ⟨_, hk.symm⟩
  have hpr : p <+: drop_trailing_zeros ds :=
    List.prefix_of_prefix_length_le hp hr (Nat.le_of_lt hlt)
  obtain ⟨q, hq⟩ := hpr
  have hqne : q ≠ [] := by
    rintro rfl
    rw [List.append_nil] at hq
    rw [hq] at hlt
    exact absurd hlt (lt_irrefl _)
  have hlast : q.getLast? ≠ some 0 := by
    have := drop_trailing_zeros_getLast ds
    rw [← hq] at this
    rwa [List.getLast?_append_of_ne_nil _ hqne] at this
  have hqpos := mag_pos_of_getLast q hqne hlast
  have h1 : mag (drop_trailing_zeros ds) = mag p + WORD ^ p.length * mag q := by
    rw [← hq, mag_append]
  rw [mag_drop_trailing_zeros, ← hmag] at h1
  have hW : 0 < WORD ^ p.length := Nat.pow_pos (by decide)
  have := Nat.mul_pos hW hqpos
  omega

/-! ## Addition: loop facts -/

theorem list_at_of_lt (l : List Nat) (i : Nat) (h : i < l.length) :
    list_at l i = .ok (l.getD i 0) := by
  simp [list_at, h]

theorem list_items_of_lt (l : List Nat) (i : Nat) (h : i < l.length) :
    list_items l i = .ok (l.getD i 0) := by
  simp [list_items, h]

theorem getD_of_le (l : List Nat) (i : Nat) (h : l.length ≤ i) : l.getD i 0 = 0 := by
  simp [List.getD_eq_getElem?_getD, List.getElem?_eq_none h]

theorem getD_lt_of_words (l : List Nat) (hl : words l) (i : Nat) : l.getD i 0 < WORD := by
  by_cases h : i < l.length
  · have : l.getD i 0 = l[i] := by simp [List.getD_eq_getElem?_getD, h]
    rw [this]
    exact hl _ (List.getElem_mem h)
  · rw [getD_of_le l i (Nat.le_of_not_lt h)]; decide

/-- One iteration of the same-sign loop, in closed form: digit sum with carry. -/
theorem add_same_step_eq (op1 op2 : BigInt) (i c : Nat) (hc : c ≤ 1)
    (h1 : words op1.digits) (h2 : words op2.digits) :
    add_same_step op1 op2 i c =
      .ok ((c + op1.digits.getD i 0 + op2.digits.getD i 0) % WORD,
           (c + op1.digits.getD i 0 + op2.digits.getD i 0) / WORD,
           decide (i < op1.digits.length ∨ i < op2.digits.length)) := by
  have ha := getD_lt_of_words _ h1 i
  have hb := getD_lt_of_words _ h2 i
  unfold add_same_step
  by_cases hi1 : i < op1.digits.length
  · by_cases hi2 : i < op2.digits.length
    · simp only [hi1, hi2, if_true, list_at_of_lt, uaddll_overflow, bind, Except.bind, pure,
        Except.pure]
      generalize op1.digits.getD i 0 = a at *
      generalize op2.digits.getD i 0 = b at *
      simp only [WORD] at *
      simp only [Except.ok.injEq, Prod.mk.injEq, or_self, decide_True, and_true]
      constructor
      · omega
      · split <;> split <;> simp_all <;> omega
    · rw [getD_of_le _ _ (Nat.le_of_not_lt hi2)] at *
      simp only [hi1, hi2, if_true, if_false, list_at_of_lt, uaddll_overflow, bind, Except.bind,
        pure, Except.pure]
      generalize op1.digits.getD i 0 = a at *
      simp only [WORD] at *
      simp only [Except.ok.injEq, Prod.mk.injEq, or_false, decide_True, and_true]
      constructor
      · omega
      · split <;> simp_all <;> omega
  · rw [getD_of_le _ _ (Nat.le_of_not_lt hi1)] at *
    by_cases hi2 : i < op2.digits.length
    · simp only [hi1, hi2, if_true, if_false, list_at_of_lt, uaddll_overflow, bind, Except.bind,
        pure, Except.pure]
      generalize op2.digits.getD i 0 = b at *
      simp only [WORD] at *
      simp only [Except.ok.injEq, Prod.mk.injEq, false_or, decide_True, and_true]
      constructor
      · omega
      · split <;> simp_all <;> omega
    · rw [getD_of_le _ _ (Nat.le_of_not_lt hi2)] at *
      simp only [hi1, hi2, if_false, bind, Except.bind, pure, Except.pure]
      simp only [WORD] at *
      simp only [Except.ok.injEq, Prod.mk.injEq, or_self, decide_False, and_true]
      omega

theorem mag_drop (l : List Nat) (i : Nat) :
    mag (l.drop i) = l.getD i 0 + WORD * mag (l.drop (i + 1)) := by
  induction l generalizing i with
  | nil => simp [mag]
  | cons d l ih =>
    cases i with
    | zero => simp [mag]
    | succ i => simpa using ih i

theorem words_append_singleton (l : List Nat) (x : Nat) (hl : words l) (hx : x < WORD) :
    words (l ++ [x]) := by
  intro d hd
  rcases List.mem_append.mp hd with h | h
  · exact hl d h
  · rw [List.mem_singleton.mp h]; exact hx

/-- The same-sign loop returns, leaves no carry behind, and its digits denote the sum. -/
theorem add_same_loop_spec (op1 op2 : BigInt) (h1 : words op1.digits) (h2 : words op2.digits) :
    ∀ (fuel i c : Nat) (dest : List Nat), c ≤ 1 → words dest →
      i ≤ max op1.digits.length op2.digits.length →
      max op1.digits.length op2.digits.length + 1 ≤ i + fuel →
      ∃ digits, add_same_loop op1 op2 fuel i c dest = .ok (digits, 0) ∧ words digits ∧
        digits.length = dest.length + (max op1.digits.length op2.digits.length - i) + 1 ∧
        mag digits = mag dest + WORD ^ dest.length *
          (c + mag (op1.digits.drop i) + mag (op2.digits.drop i)) := by
  intro fuel
  induction fuel with
  | zero => intro i c dest _ _ hi hf; omega
  | succ fuel ih =>
    intro i c dest hc hd hi hf
    have ha := getD_lt_of_words _ h1 i
    have hb := getD_lt_of_words _ h2 i
    rw [add_same_loop]
    simp only [add_same_step_eq op1 op2 i c hc h1 h2, bind, Except.bind]
    by_cases hfound : i < op1.digits.length ∨ i < op2.digits.length
    · have hi' : i + 1 ≤ max op1.digits.length op2.digits.length := by
        rcases hfound with h | h <;> omega
      have hc' : (c + op1.digits.getD i 0 + op2.digits.getD i 0) / WORD ≤ 1 := by
        simp only [WORD] at *; omega
      have hx : (c + op1.digits.getD i 0 + op2.digits.getD i 0) % WORD < WORD :=
        Nat.mod_lt _ (by decide)
      obtain ⟨digits, hrun, hw, hlen, hmag⟩ :=
        ih (i + 1) _ (dest ++ [(c + op1.digits.getD i 0 + op2.digits.getD i 0) % WORD])
          hc' (words_append_singleton _ _ hd hx) hi' (by omega)
      refine ⟨digits, ?_, hw, ?_, ?_⟩
      · simp only [hfound, decide_True, Bool.not_true, Bool.false_eq_true, if_false]
        exact hrun
      · rw [hlen, List.length_append, List.length_singleton]; omega
      · rw [hmag, mag_append, mag_drop op1.digits i, mag_drop op2.digits i,
          List.length_append, List.length_singleton, pow_succ]
        have hs := Nat.div_add_mod (c + op1.digits.getD i 0 + op2.digits.getD i 0) WORD
        simp only [mag]
        generalize (c + op1.digits.getD i 0 + op2.digits.getD i 0) / WORD = q at *
        generalize (c + op1.digits.getD i 0 + op2.digits.getD i 0) % WORD = r at *
        have : r = c + op1.digits.getD i 0 + op2.digits.getD i 0 - WORD * q := by omega
        have hle : WORD * q ≤ c + op1.digits.getD i 0 + op2.digits.getD i 0 := by omega
        zify [hle] at this
        zify
        rw [this]
        ring
    · push_neg at hfound
      have e1 := getD_of_le _ _ hfound.1
      have e2 := getD_of_le _ _ hfound.2
      have hnf : ¬ (i < op1.digits.length ∨ i < op2.digits.length) := by omega
      have hcW : c % WORD = c := Nat.mod_eq_of_lt (by simp only [WORD]; omega)
      have hcD : c / WORD = 0 := Nat.div_eq_of_lt (by simp only [WORD]; omega)
      refine ⟨dest ++ [c], ?_, ?_, ?_, ?_⟩
      · rw [e1, e2, Nat.add_zero, Nat.add_zero, hcW, hcD]
        simp [hnf, pure, Except.pure]
      · exact words_append_singleton _ _ hd (by simp only [WORD]; omega)
      · rw [List.length_append, List.length_singleton]; omega
      · rw [mag_append, List.drop_of_length_le hfound.1, List.drop_of_length_le hfound.2]
        simp [mag]

/-- One iteration of the differing-sign loop either reads past `bigger_op` or yields a word. -/
theorem add_diff_step_cases (bigger_op smaller_op : BigInt) (i c : Nat) :
    (bigger_op.digits.length ≤ i ∧
        add_diff_step bigger_op smaller_op i c = .error Fault.outOfBounds) ∨
    (i < bigger_op.digits.length ∧
        ∃ x o f, add_diff_step bigger_op smaller_op i c = .ok (x, o, f) ∧ x < WORD) := by
  have hW : 0 < WORD := by decide
  unfold add_diff_step
  by_cases hi : i < bigger_op.digits.length
  · right
    refine ⟨hi, ?_⟩
    by_cases hs : i < smaller_op.digits.length
    · simp only [list_items_of_lt _ _ hi, list_items_of_lt _ _ hs, hs, if_true, bind, Except.bind,
        pure, Except.pure, usubll_overflow]
      split
      · exact ⟨_, _, _, rfl, Nat.mod_lt _ hW⟩
      · exact ⟨_, _, _, rfl, Nat.mod_lt _ hW⟩
    · simp only [list_items_of_lt _ _ hi, hs, if_false, bind, Except.bind, pure, Except.pure,
        usubll_overflow]
      split
      · exact ⟨_, _, _, rfl, Nat.mod_lt _ hW⟩
      · exact ⟨_, _, _, rfl, Nat.mod_lt _ hW⟩
  · left
    refine ⟨Nat.le_of_not_lt hi, ?_⟩
    simp [list_items, hi, bind, Except.bind]

/-- Whatever the differing-sign loop returns consists of words, one per iteration. -/
theorem add_diff_loop_words (bigger_op smaller_op : BigInt) :
    ∀ (fuel i c : Nat) (dest digits : List Nat) (o : Nat), words dest →
      add_diff_loop bigger_op smaller_op fuel i c dest = .ok (digits, o) →
      words digits ∧ digits.length ≤ dest.length + fuel := by
  intro fuel
  induction fuel with
  | zero => intro i c dest digits o _ h; simp [add_diff_loop] at h
  | succ fuel ih =>
    intro i c dest digits o hd h
    rw [add_diff_loop] at h
    rcases add_diff_step_cases bigger_op smaller_op i c with ⟨_, he⟩ | ⟨_, x, o', f, he, hx⟩
    · simp [he, bind, Except.bind] at h
    · simp only [he, bind, Except.bind] at h
      cases f with
      | false =>
        simp only [Bool.not_false, if_true, pure, Except.pure, Except.ok.injEq,
          Prod.mk.injEq] at h
        rw [← h.1]
        refine ⟨words_append_singleton _ _ hd hx, ?_⟩
        rw [List.length_append, List.length_singleton]; omega
      | true =>
        simp only [Bool.not_true, Bool.false_eq_true, if_false] at h
        have := ih (i + 1) o' (dest ++ [x]) digits o (words_append_singleton _ _ hd hx) h
        refine ⟨this.1, ?_⟩
        have h2 := this.2
        rw [List.length_append, List.length_singleton] at h2
        omega

/-- The differing-sign loop never exhausts the iteration bound it is given. -/
theorem add_diff_loop_fuel (bigger_op smaller_op : BigInt) :
    ∀ (fuel i c : Nat) (dest : List Nat), i ≤ bigger_op.digits.length →
      bigger_op.digits.length + 1 ≤ i + fuel →
      add_diff_loop bigger_op smaller_op fuel i c dest ≠ .error Fault.fuel := by
  intro fuel
  induction fuel with
  | zero => intro i c dest hi hf; omega
  | succ fuel ih =>
    intro i c dest hi hf
    rw [add_diff_loop]
    rcases add_diff_step_cases bigger_op smaller_op i c with ⟨_, he⟩ | ⟨hlt, x, o', f, he, _⟩
    · simp [he, bind, Except.bind]
    · simp only [he, bind, Except.bind]
      cases f with
      | false => simp [pure, Except.pure]
      | true =>
        simp only [Bool.not_true, Bool.false_eq_true, if_false]
        exact ih (i + 1) o' (dest ++ [x]) hlt (by omega)

theorem list_at_cases (l : List Nat) (i : Nat) :
    list_at l i = .ok (l.getD i 0) ∨ list_at l i = .error Fault.assertion := by
  unfold list_at
  split
  · exact Or.inl rfl
  · exact Or.inr rfl

theorem cmp_loop_fuel (op1 op2 : BigInt) (i : Nat) :
    cmp_loop op1 op2 i ≠ .error Fault.fuel := by
  induction i with
  | zero =>
    unfold cmp_loop
    rcases list_at_cases op1.digits 0 with h1 | h1 <;>
      rcases list_at_cases op2.digits 0 with h2 | h2 <;>
      simp only [h1, h2, bind, Except.bind, pure, Except.pure] <;>
      (try split) <;> simp
  | succ i ih =>
    unfold cmp_loop
    rcases list_at_cases op1.digits (i + 1) with h1 | h1 <;>
      rcases list_at_cases op2.digits (i + 1) with h2 | h2 <;>
      simp only [h1, h2, bind, Except.bind, pure, Except.pure] <;>
      (try split) <;> first | exact ih | simp

theorem bigint_cmp_fuel (op1 op2 : BigInt) : bigint_cmp op1 op2 ≠ .error Fault.fuel := by
  unfold bigint_cmp
  simp only [pure, Except.pure]
  split
  · simp
  · split
    · simp
    · split
      · simp
      · split
        · simp
        · split
          · simp
          · exact cmp_loop_fuel _ _ _

/-! ## Normalization is preserved -/

theorem words_drop_trailing_zeros (ds : List Nat) (hw : words ds) :
    words (drop_trailing_zeros ds) := by
  obtain ⟨k, hk⟩ := drop_trailing_zeros_append ds
  intro d hd
  apply hw
  rw [hk]
  exact List.mem_append_left _ hd

theorem normalized_bigint_normalize (ds : List Nat) (s : Bool) (hw : words ds)
    (hlen : ds.length ≤ SIZE_MAX) :
    normalized (bigint_normalize { digits := ds, is_negative := s }) := by
  rw [bigint_normalize_eq ds s hlen]
  refine ⟨words_drop_trailing_zeros ds hw, drop_trailing_zeros_getLast ds, ?_⟩
  intro h
  simp only at h
  simp [h]

theorem bigint_negate_digits_length (op : BigInt) (hlen : op.digits.length ≤ SIZE_MAX) :
    (bigint_negate op).digits.length ≤ op.digits.length := by
  unfold bigint_negate bigint_init_bigint
  simp only [List.map_id']
  rw [bigint_normalize_eq _ _ hlen]
  exact drop_trailing_zeros_length_le _

theorem normalized_bigint_negate (op : BigInt) (hw : words op.digits)
    (hlen : op.digits.length ≤ SIZE_MAX) : normalized (bigint_negate op) := by
  unfold bigint_negate bigint_init_bigint
  simp only [List.map_id']
  exact normalized_bigint_normalize _ _ hw hlen

theorem normalized_bigint_init_unsigned (x : Nat) (hx : x < WORD) :
    normalized (bigint_init_unsigned x) := by
  unfold bigint_init_unsigned
  apply normalized_bigint_normalize
  · intro d hd
    rw [List.mem_singleton.mp hd]; exact hx
  · simp [SIZE_MAX]

theorem normalized_add_diff_tail (bigger_op smaller_op : BigInt) (s : Bool)
    (hlen : bigger_op.digits.length < SIZE_MAX) :
    add_diff_tail bigger_op smaller_op s ≠ .error Fault.fuel ∧
      ∀ r, add_diff_tail bigger_op smaller_op s = .ok r → normalized r := by
  unfold add_diff_tail
  have hfuel := add_diff_loop_fuel bigger_op smaller_op (bigger_op.digits.length + 1) 0 0 []
    (Nat.zero_le _) (by omega)
  cases hrun : add_diff_loop bigger_op smaller_op (bigger_op.digits.length + 1) 0 0 [] with
  | error e =>
    rw [hrun] at hfuel
    refine ⟨?_, ?_⟩
    · simpa [bind, Except.bind] using hfuel
    · intro r hr
      simp [bind, Except.bind] at hr
  | ok p =>
    obtain ⟨digits, o⟩ := p
    have hwl := add_diff_loop_words bigger_op smaller_op _ 0 0 [] digits o
      (by intro d hd; simp at hd) hrun
    simp only [bind, Except.bind, pure, Except.pure]
    by_cases ho : o = 0
    · simp only [ho, ne_eq, not_true_eq_false, if_false]
      refine ⟨by simp, ?_⟩
      intro r hr
      simp only [Except.ok.injEq] at hr
      rw [← hr]
      apply normalized_bigint_normalize _ _ hwl.1
      have := hwl.2
      simp only [List.length_nil] at this
      omega
    · simp only [ne_eq, ho, not_false_eq_true, if_true]
      refine ⟨by simp, ?_⟩
      intro r hr
      simp at hr

/-- Every value `bigint_add` returns is normalized; the call never exhausts an iteration
bound; and on operands of equal sign it does return a value. -/
theorem bigint_add_normalized (a b : BigInt) (ha : words a.digits) (hb : words b.digits)
    (hla : a.digits.length < SIZE_MAX) (hlb : b.digits.length < SIZE_MAX) :
    bigint_add a b ≠ .error Fault.fuel ∧
    (∀ r, bigint_add a b = .ok r → normalized r) ∧
    (a.is_negative = b.is_negative → ∃ r, bigint_add a b = .ok r) := by
  unfold bigint_add
  by_cases hs : a.is_negative = b.is_negative
  · obtain ⟨digits, hrun, hw, hlen, _⟩ :=
      add_same_loop_spec a b ha hb (max a.digits.length b.digits.length + 1) 0 0 []
        (Nat.zero_le _) (by intro d hd; simp at hd) (Nat.zero_le _) (by omega)
    simp only [hs, if_true, hrun, bind, Except.bind, pure, Except.pure, gt_iff_lt,
      Nat.lt_irrefl, if_false]
    refine ⟨by simp, ?_, fun _ => ⟨_, rfl⟩⟩
    intro r hr
    simp only [Except.ok.injEq] at hr
    rw [← hr]
    apply normalized_bigint_normalize _ _ hw
    rw [hlen]
    simp only [List.length_nil]
    omega
  · simp only [hs, if_false]
    have hcf := bigint_cmp_fuel (if a.is_negative then b else a)
      (bigint_negate (if a.is_negative then a else b))
    have hpos : (if a.is_negative then b else a).digits.length < SIZE_MAX := by
      split <;> assumption
    have hneg : (bigint_negate (if a.is_negative then a else b)).digits.length < SIZE_MAX := by
      split
      · exact lt_of_le_of_lt (bigint_negate_digits_length a (Nat.le_of_lt hla)) hla
      · exact lt_of_le_of_lt (bigint_negate_digits_length b (Nat.le_of_lt hlb)) hlb
    cases hc : bigint_cmp (if a.is_negative then b else a)
        (bigint_negate (if a.is_negative then a else b)) with
    | error e =>
      rw [hc] at hcf
      refine ⟨by simpa [bind, Except.bind] using hcf, ?_, fun h => h.elim⟩
      intro r hr
      simp [bind, Except.bind] at hr
    | ok c =>
      cases c with
      | CmpEQ =>
        simp only [bind, Except.bind, pure, Except.pure]
        refine ⟨by simp, ?_, fun h => h.elim⟩
        intro r hr
        simp only [Except.ok.injEq] at hr
        rw [← hr]
        exact normalized_bigint_init_unsigned 0 (by decide)
      | CmpLT =>
        simp only [bind, Except.bind]
        have := normalized_add_diff_tail (bigint_negate (if a.is_negative then a else b))
          (if a.is_negative then b else a) true hneg
        exact ⟨this.1, this.2, fun h => h.elim⟩
      | CmpGT =>
        simp only [bind, Except.bind]
        have := normalized_add_diff_tail (if a.is_negative then b else a)
          (bigint_negate (if a.is_negative then a else b)) false hpos
        exact ⟨this.1, this.2, fun h => h.elim⟩

theorem bigint_add_mem_same_sign (behind_pos behind_neg_abs : List Nat) (a b : BigInt)
    (hs : a.is_negative = b.is_negative) :
    bigint_add_mem behind_pos behind_neg_abs a b = bigint_add a b := by
  unfold bigint_add_mem bigint_add
  rw [if_pos hs, if_pos hs]

/-- With nothing stored behind the digits, `bigint_add_mem` is `bigint_add`. -/
theorem bigint_add_mem_nil (a b : BigInt) : bigint_add_mem [] [] a b = bigint_add a b := by
  unfold bigint_add_mem bigint_add
  simp only [List.append_nil]

/-- Whatever words lie behind the digits of the operands, every value `bigint_add` returns is
normalized, the call never exhausts an iteration bound, and on operands of equal sign it
does return a value. -/
theorem bigint_add_mem_normalized (behind_pos behind_neg_abs : List Nat) (a b : BigInt)
    (ha : words a.digits) (hb : words b.digits)
    (hla : a.digits.length + max behind_pos.length behind_neg_abs.length < SIZE_MAX)
    (hlb : b.digits.length + max behind_pos.length behind_neg_abs.length < SIZE_MAX) :
    bigint_add_mem behind_pos behind_neg_abs a b ≠ .error Fault.fuel ∧
    (∀ r, bigint_add_mem behind_pos behind_neg_abs a b = .ok r → normalized r) ∧
    (a.is_negative = b.is_negative →
      ∃ r, bigint_add_mem behind_pos behind_neg_abs a b = .ok r) := by
  have hla' : a.digits.length < SIZE_MAX := by omega
  have hlb' : b.digits.length < SIZE_MAX := by omega
  by_cases hs : a.is_negative = b.is_negative
  · rw [bigint_add_mem_same_sign _ _ a b hs]
    exact bigint_add_normalized a b ha hb hla' hlb'
  · unfold bigint_add_mem
    simp only [hs, if_false]
    have hcf := bigint_cmp_fuel (if a.is_negative then b else a)
      (bigint_negate (if a.is_negative then a else b))
    have hpos : (if a.is_negative then b else a).digits.length + behind_pos.length
        < SIZE_MAX := by
      split <;> omega
    have hneg : (bigint_negate (if a.is_negative then a else b)).digits.length
        + behind_neg_abs.length < SIZE_MAX := by
      split
      · have := bigint_negate_digits_length a (Nat.le_of_lt hla')
        omega
      · have := bigint_negate_digits_length b (Nat.le_of_lt hlb')
        omega
    cases hc : bigint_cmp (if a.is_negative then b else a)
        (bigint_negate (if a.is_negative then a else b)) with
    | error e =>
      rw [hc] at hcf
      refine ⟨by simpa [bind, Except.bind] using hcf, ?_, fun h => h.elim⟩
      intro r hr
      simp [bind, Except.bind] at hr
    | ok c =>
      cases c with
      | CmpEQ =>
        simp only [bind, Except.bind, pure, Except.pure]
        refine ⟨by simp, ?_, fun h => h.elim⟩
        intro r hr
        simp only [Except.ok.injEq] at hr
        rw [← hr]
        exact normalized_bigint_init_unsigned 0 (by decide)
      | CmpLT =>
        simp only [bind, Except.bind]
        have := normalized_add_diff_tail
          ⟨(bigint_negate (if a.is_negative then a else b)).digits ++ behind_neg_abs,
            (bigint_negate (if a.is_negative then a else b)).is_negative⟩
          (if a.is_negative then b else a) true
          (by simp only [List.length_append]; exact hneg)
        exact ⟨this.1, this.2, fun h => h.elim⟩
      | CmpGT =>
        simp only [bind, Except.bind]
        have := normalized_add_diff_tail
          ⟨(if a.is_negative then b else a).digits ++ behind_pos,
            (if a.is_negative then b else a).is_negative⟩
          (bigint_negate (if a.is_negative then a else b)) false
          (by simp only [List.length_append]; exact hpos)
        exact ⟨this.1, this.2, fun h => h.elim⟩

/-! ## The claims -/

/-- C1 (fails on the code): `bigint_add` is not exact on operands of differing sign.
`1 + (-2)` is returned as zero because `bigint_cmp` reports the magnitudes equal;
`5 + (-3)` reads `bigger_op->digits.items[1]` of a one-digit operand; and
`-(5 + 7 * 2^64) + 0` comes back as `-5`, the upper digit being dropped. -/
theorem bigint_add_differing_signs_inexact :
    normalized ⟨[1], false⟩ ∧ normalized ⟨[2], true⟩ ∧
    bigint_add ⟨[1], false⟩ ⟨[2], true⟩ = .ok ⟨[], false⟩ ∧
    value ⟨[1], false⟩ + value ⟨[2], true⟩ = -1 ∧ value ⟨[], false⟩ = 0 ∧
    bigint_add ⟨[5], false⟩ ⟨[3], true⟩ = .error Fault.outOfBounds ∧
    normalized ⟨[5, 7], true⟩ ∧
    bigint_add ⟨[5, 7], true⟩ ⟨[], false⟩ = .ok ⟨[5], true⟩ := by
  decide

/-- C2 (fails on the code): the digit loop of `bigint_cmp` only tests `op1_digit > op2_digit`.
It answers `CmpEQ` for `1` against `2` and for `-1` against `-2`, and `CmpGT` for
`5 + 2^64` against `3 + 2 * 2^64`. -/
theorem bigint_cmp_misses_smaller_digit :
    bigint_cmp ⟨[1], false⟩ ⟨[2], false⟩ = .ok Cmp.CmpEQ ∧
    value ⟨[1], false⟩ < value ⟨[2], false⟩ ∧
    bigint_cmp ⟨[1], true⟩ ⟨[2], true⟩ = .ok Cmp.CmpEQ ∧
    value ⟨[1], true⟩ > value ⟨[2], true⟩ ∧
    normalized ⟨[5, 1], false⟩ ∧ normalized ⟨[3, 2], false⟩ ∧
    bigint_cmp ⟨[5, 1], false⟩ ⟨[3, 2], false⟩ = .ok Cmp.CmpGT ∧
    value ⟨[5, 1], false⟩ < value ⟨[3, 2], false⟩ := by
  decide

/-- C3: the constructors and the sign-magnitude operations return normalized values.
For a word `x`, an `int64_t` `y` and normalized `a`, `b`, the values
`bigint_init_unsigned x`, `bigint_init_signed y`, `bigint_init_bigint a` and
`bigint_negate a` are normalized, and so is every value returned by `bigint_add` and
`bigint_sub` on `a` and `b`, whatever words `behind_pos` and `behind_neg_abs` the buffers of
the operands hold behind their digits for the subtraction loop to read (the buffers being
shorter than `SIZE_MAX`); the case of nothing stored behind the digits is stated apart.
Neither call exhausts an iteration bound, and `bigint_add` does return a value when the
signs agree, `bigint_sub` when they differ and `b` is nonzero. -/
theorem normalization_invariant (x : Nat) (y : Int) (a b : BigInt)
    (behind_pos behind_neg_abs : List Nat)
    (hx : x < WORD) (hy : -9223372036854775808 ≤ y ∧ y ≤ 9223372036854775807)
    (ha : normalized a) (hb : normalized b)
    (hla : a.digits.length + max behind_pos.length behind_neg_abs.length < SIZE_MAX)
    (hlb : b.digits.length + max behind_pos.length behind_neg_abs.length < SIZE_MAX) :
    normalized (bigint_init_unsigned x) ∧
    normalized (bigint_init_signed y) ∧
    normalized (bigint_init_bigint a) ∧
    normalized (bigint_negate a) ∧
    (∀ r, bigint_add_mem behind_pos behind_neg_abs a b = .ok r → normalized r) ∧
    (∀ r, bigint_sub_mem behind_pos behind_neg_abs a b = .ok r → normalized r) ∧
    bigint_add_mem behind_pos behind_neg_abs a b ≠ .error Fault.fuel ∧
    bigint_sub_mem behind_pos behind_neg_abs a b ≠ .error Fault.fuel ∧
    (a.is_negative = b.is_negative →
      ∃ r, bigint_add_mem behind_pos behind_neg_abs a b = .ok r) ∧
    (a.is_negative ≠ b.is_negative → b.digits ≠ [] →
      ∃ r, bigint_sub_mem behind_pos behind_neg_abs a b = .ok r) ∧
    (∀ r, bigint_add a b = .ok r → normalized r) ∧
    (∀ r, bigint_sub a b = .ok r → normalized r) ∧
    bigint_add a b ≠ .error Fault.fuel ∧
    bigint_sub a b ≠ .error Fault.fuel ∧
    (a.is_negative = b.is_negative → ∃ r, bigint_add a b = .ok r) ∧
    (a.is_negative ≠ b.is_negative → b.digits ≠ [] → ∃ r, bigint_sub a b = .ok r) := by
  have hla' : a.digits.length < SIZE_MAX := by omega
  have hlb' : b.digits.length < SIZE_MAX := by omega
  have hnb := normalized_bigint_negate b hb.1 (Nat.le_of_lt hlb')
  have hnbl := bigint_negate_digits_length b (Nat.le_of_lt hlb')
  have hadd := bigint_add_normalized a b ha.1 hb.1 hla' hlb'
  have hsub := bigint_add_normalized a (bigint_negate b) ha.1 hnb.1 hla' (by omega)
  have haddm := bigint_add_mem_normalized behind_pos behind_neg_abs a b ha.1 hb.1 hla hlb
  have hsubm := bigint_add_mem_normalized behind_pos behind_neg_abs a (bigint_negate b)
    ha.1 hnb.1 hla (by omega)
  have hsign : a.is_negative ≠ b.is_negative → b.digits ≠ [] →
      a.is_negative = (bigint_negate b).is_negative := by
    intro hs hne
    have hd : drop_trailing_zeros b.digits ≠ [] := by
      rw [drop_trailing_zeros_of_getLast _ hb.2.1]; exact hne
    unfold bigint_negate bigint_init_bigint
    simp only [List.map_id']
    rw [bigint_normalize_eq _ _ (Nat.le_of_lt hlb')]
    simp only [hd, if_false]
    cases h1 : a.is_negative <;> cases h2 : b.is_negative <;> simp_all
  refine ⟨normalized_bigint_init_unsigned x hx, ?_, ?_, normalized_bigint_negate a ha.1
    (Nat.le_of_lt hla'), haddm.2.1, hsubm.2.1, haddm.1, hsubm.1, haddm.2.2,
    fun hs hne => hsubm.2.2 (hsign hs hne), hadd.2.1, hsub.2.1, hadd.1, hsub.1, hadd.2.2,
    fun hs hne => hsub.2.2 (hsign hs hne)⟩
  · unfold bigint_init_signed
    split
    · apply normalized_bigint_init_unsigned
      simp only [WORD]
      omega
    · apply normalized_bigint_normalize
      · intro d hd
        rw [List.mem_singleton.mp hd]
        exact Nat.mod_lt _ (by decide)
      · simp [SIZE_MAX]
  · unfold bigint_init_bigint
    simpa only [List.map_id'] using ha

/-- C3 at `x = 5`, `y = -3`, `a = 5`, `b = -3`, with the word `7` behind the digit of `a`:
the subtraction loop reads that word and the call returns `2 + 7 * 2^64`, normalized. -/
theorem normalization_invariant_witness :
    bigint_add_mem [7] [0] ⟨[5], false⟩ ⟨[3], true⟩ = .ok ⟨[2, 7], false⟩ ∧
    bigint_sub_mem [7] [0] ⟨[5], false⟩ ⟨[3], true⟩ = .ok ⟨[8], false⟩ ∧
    normalized (bigint_init_unsigned 5) ∧
    normalized (bigint_init_signed (-3)) ∧
    normalized (bigint_init_bigint ⟨[5], false⟩) ∧
    normalized (bigint_negate ⟨[5], false⟩) ∧
    (∀ r, bigint_add_mem [7] [0] ⟨[5], false⟩ ⟨[3], true⟩ = .ok r → normalized r) ∧
    (∀ r, bigint_sub_mem [7] [0] ⟨[5], false⟩ ⟨[3], true⟩ = .ok r → normalized r) :=
  have h := normalization_invariant 5 (-3) ⟨[5], false⟩ ⟨[3], true⟩ [7] [0]
    (by decide) (by decide) (by decide) (by decide) (by decide) (by decide)
  ⟨by decide, by decide, h.1, h.2.1, h.2.2.1, h.2.2.2.1, h.2.2.2.2.1, h.2.2.2.2.2.1⟩

/-- C4: `bigint_normalize` on digits `ds` (a list whose length fits `size_t`) and sign `s`
keeps exactly `ds` without its most significant zero words: the result is a prefix of `ds`
followed in `ds` by zeros only, it does not end in a zero word, it denotes the same
magnitude, and no shorter prefix of `ds` does. The sign flag becomes false when the result
is empty and stays `s` otherwise. Normalizing a second time changes nothing. -/
theorem bigint_normalize_spec (ds : List Nat) (s : Bool) (hlen : ds.length ≤ SIZE_MAX) :
    (bigint_normalize ⟨ds, s⟩).digits = drop_trailing_zeros ds ∧
    (∃ k, ds = (bigint_normalize ⟨ds, s⟩).digits ++ List.replicate k 0) ∧
    (bigint_normalize ⟨ds, s⟩).digits.getLast? ≠ some 0 ∧
    mag (bigint_normalize ⟨ds, s⟩).digits = mag ds ∧
    (∀ p, p <+: ds → mag p = mag ds → (bigint_normalize ⟨ds, s⟩).digits.length ≤ p.length) ∧
    (bigint_normalize ⟨ds, s⟩).is_negative =
      (if (bigint_normalize ⟨ds, s⟩).digits = [] then false else s) ∧
    bigint_normalize (bigint_normalize ⟨ds, s⟩) = bigint_normalize ⟨ds, s⟩ := by
  rw [bigint_normalize_eq ds s hlen]
  refine ⟨rfl, drop_trailing_zeros_append ds, drop_trailing_zeros_getLast ds,
    mag_drop_trailing_zeros ds, fun p hp hm => drop_trailing_zeros_shortest ds p hp hm,
    rfl, ?_⟩
  rw [bigint_normalize_eq _ _ (le_trans (drop_trailing_zeros_length_le ds) hlen)]
  rw [drop_trailing_zeros_of_getLast _ (drop_trailing_zeros_getLast ds)]
  by_cases h : drop_trailing_zeros ds = [] <;> simp [h]

/-- C4 at the digits `[1, 0, 3, 0, 0]` with a negative sign. -/
theorem bigint_normalize_spec_witness :
    [1, 0, 3, 0, 0].length ≤ SIZE_MAX ∧
    bigint_normalize ⟨[1, 0, 3, 0, 0], true⟩ = ⟨[1, 0, 3], true⟩ ∧
    (bigint_normalize ⟨[1, 0, 3, 0, 0], true⟩).digits = drop_trailing_zeros [1, 0, 3, 0, 0] ∧
    bigint_normalize (bigint_normalize ⟨[1, 0, 3, 0, 0], true⟩) =
      bigint_normalize ⟨[1, 0, 3, 0, 0], true⟩ :=
  ⟨by decide, by decide,
    (bigint_normalize_spec [1, 0, 3, 0, 0] true (by decide)).1,
    (bigint_normalize_spec [1, 0, 3, 0, 0] true (by decide)).2.2.2.2.2.2⟩

/-- C5 (fails on the code): `bigint_mul` multiplies the digits of equal index only.
`2^64 * 3` is returned as zero and `2^64 * 2^64` as `2^64`. -/
theorem bigint_mul_pairs_digits_by_index :
    normalized ⟨[0, 1], false⟩ ∧ normalized ⟨[3], false⟩ ∧
    bigint_mul ⟨[0, 1], false⟩ ⟨[3], false⟩ = .ok ⟨[], false⟩ ∧
    value ⟨[0, 1], false⟩ * value ⟨[3], false⟩ = 55340232221128654848 ∧
    bigint_mul ⟨[0, 1], false⟩ ⟨[0, 1], false⟩ = .ok ⟨[0, 1], false⟩ ∧
    value ⟨[0, 1], false⟩ * value ⟨[0, 1], false⟩ = value ⟨[0, 0, 1], false⟩ := by
  decide

/-- C6 (fails on the code): the round trip through eight bits fails on `0`, where
`bit_at_index` indexes the empty digit list; through one bit, `-1` comes back as `0`. -/
theorem twos_complement_round_trip_fails :
    normalized ⟨[], false⟩ ∧ normalized ⟨[1], true⟩ ∧
    to_twos_complement ⟨[], false⟩ 8 = .ok ⟨[], false⟩ ∧
    twos_complement_round_trip ⟨[], false⟩ 8 = .error Fault.assertion ∧
    to_twos_complement ⟨[1], true⟩ 1 = .ok ⟨[1], false⟩ ∧
    twos_complement_round_trip ⟨[1], true⟩ 1 = .ok ⟨[], false⟩ := by
  decide

/-- C7 (fails on the code): `bigint_not` complements the stored digits only.
`bigint_not(0, 8)` is `0`, not `255`; `bigint_not(5, 128)` is `2^64 - 6`, not `2^128 - 6`;
at width 40 the `int` mask expression is undefined. -/
theorem bigint_not_ignores_unstored_bits :
    bigint_not ⟨[], false⟩ 8 = .ok ⟨[], false⟩ ∧
    bigint_not ⟨[5], false⟩ 128 = .ok ⟨[18446744073709551610], false⟩ ∧
    bigint_not ⟨[5], false⟩ 40 = .error Fault.undefined ∧
    bigint_not ⟨[5], false⟩ 8 = .ok ⟨[250], false⟩ := by
  decide

/-- C8 (fails on the code): for a non-negative operand `bigint_truncate` leaves the
destination as it was. Truncating `300` to eight bits leaves a destination holding `0` at `0`
and a destination holding `-7` at `-7`; the claim asks for `44` in both. -/
theorem bigint_truncate_leaves_dest :
    normalized ⟨[300], false⟩ ∧
    bigint_truncate ⟨[], false⟩ ⟨[300], false⟩ 8 = .ok ⟨[], false⟩ ∧
    bigint_truncate ⟨[7], true⟩ ⟨[300], false⟩ 8 = .ok ⟨[7], true⟩ ∧
    value ⟨[300], false⟩ % 2 ^ 8 = 44 := by
  decide

/-- C9 (fails on the code): the unsigned branch of `bigint_fits_in_bits` does not test the
sign, so `-1` fits in 64 unsigned bits; and `bigint_clz` walks the digits in the wrong
order, so `2^64` fits in one unsigned bit while `2^64 + 2^63` does not fit in 65. -/
theorem bigint_fits_in_bits_unsigned_wrong :
    normalized ⟨[1], true⟩ ∧
    bigint_fits_in_bits ⟨[1], true⟩ 64 false = .ok true ∧
    normalized ⟨[0, 1], false⟩ ∧
    bigint_clz ⟨[0, 1], false⟩ 128 = .ok 127 ∧
    bigint_fits_in_bits ⟨[0, 1], false⟩ 1 false = .ok true ∧
    normalized ⟨[9223372036854775808, 1], false⟩ ∧
    bigint_fits_in_bits ⟨[9223372036854775808, 1], false⟩ 65 false = .ok false ∧
    value ⟨[9223372036854775808, 1], false⟩ < 2 ^ 65 := by
  set_option maxRecDepth 100000 in decide

/-- C10 (fails on the code): at 66 bits the signed check rejects `-(2^64 + 1)`, which lies
above `-2^65`, because `bigint_cmp` answers `CmpLT` on the low digit. The bound
`2^65 - 1` is computed by `bigint_sub` without a read past a digit count. -/
theorem bigint_fits_in_bits_signed_wrong :
    normalized ⟨[1, 1], true⟩ ∧
    bigint_shl (bigint_init_unsigned 1) (bigint_init_unsigned 65) = .ok ⟨[0, 2], false⟩ ∧
    bigint_cmp ⟨[1, 1], true⟩ ⟨[0, 2], true⟩ = .ok Cmp.CmpLT ∧
    value ⟨[0, 2], true⟩ ≤ value ⟨[1, 1], true⟩ ∧
    bigint_sub ⟨[0, 2], false⟩ ⟨[1], false⟩ = .ok ⟨[18446744073709551615, 1], false⟩ ∧
    bigint_cmp ⟨[1, 1], true⟩ ⟨[18446744073709551615, 1], false⟩ = .ok Cmp.CmpLT ∧
    value ⟨[1, 1], true⟩ ≤ value ⟨[18446744073709551615, 1], false⟩ ∧
    bigint_fits_in_bits ⟨[1, 1], true⟩ 66 true = .ok false := by
  decide

/-! ## Same-sign addition: exactness and symmetry -/

theorem drop_trailing_zeros_eq_nil_iff (ds : List Nat) :
    drop_trailing_zeros ds = [] ↔ mag ds = 0 := by
  constructor
  · intro h
    rw [← mag_drop_trailing_zeros, h]
    rfl
  · intro h
    by_contra hne
    have := mag_pos_of_getLast _ hne (drop_trailing_zeros_getLast ds)
    rw [mag_drop_trailing_zeros] at this
    omega

/-- The value `bigint_add` returns on operands of equal sign. -/
theorem bigint_add_same_sign (a b : BigInt) (ha : words a.digits) (hb : words b.digits)
    (hs : a.is_negative = b.is_negative)
    (hla : a.digits.length < SIZE_MAX) (hlb : b.digits.length < SIZE_MAX) :
    ∃ digits, mag digits = mag a.digits + mag b.digits ∧
      bigint_add a b = .ok ⟨drop_trailing_zeros digits,
        if mag a.digits + mag b.digits = 0 then false else a.is_negative⟩ := by
  obtain ⟨digits, hrun, hw, hlen, hmag⟩ :=
    add_same_loop_spec a b ha hb (max a.digits.length b.digits.length + 1) 0 0 []
      (Nat.zero_le _) (by intro d hd; simp at hd) (Nat.zero_le _) (by omega)
  have hmag' : mag digits = mag a.digits + mag b.digits := by
    rw [hmag]; simp [mag]
  refine ⟨digits, hmag', ?_⟩
  unfold bigint_add
  simp only [hs, if_true, hrun, bind, Except.bind, pure, Except.pure, gt_iff_lt,
    Nat.lt_irrefl, if_false]
  have hl : digits.length ≤ SIZE_MAX := by
    rw [hlen]; simp only [List.length_nil]; omega
  rw [bigint_normalize_eq _ _ hl]
  by_cases hz : mag a.digits + mag b.digits = 0
  · have : drop_trailing_zeros digits = [] :=
      (drop_trailing_zeros_eq_nil_iff digits).mpr (by rw [hmag']; exact hz)
    simp [this, hz]
  · have : drop_trailing_zeros digits ≠ [] := by
      intro h
      exact hz (by rw [← hmag']; exact (drop_trailing_zeros_eq_nil_iff digits).mp h)
    simp [this, hz, hs]

theorem bigint_negate_eq (ds : List Nat) (s : Bool) (hlast : ds.getLast? ≠ some 0)
    (hne : ds ≠ []) (hlen : ds.length ≤ SIZE_MAX) :
    bigint_negate ⟨ds, s⟩ = ⟨ds, !s⟩ := by
  unfold bigint_negate bigint_init_bigint
  simp only [List.map_id']
  rw [bigint_normalize_eq _ _ hlen, drop_trailing_zeros_of_getLast _ hlast]
  simp [hne]

theorem cmp_loop_same_digits (op1 op2 : BigInt) (h : op1.digits = op2.digits) :
    ∀ i, i < op1.digits.length → cmp_loop op1 op2 i = .ok Cmp.CmpEQ := by
  intro i
  induction i with
  | zero =>
    intro hi
    unfold cmp_loop
    rw [← h, list_at_of_lt _ _ hi]
    simp [bind, Except.bind, pure, Except.pure]
  | succ i ih =>
    intro hi
    unfold cmp_loop
    rw [← h, list_at_of_lt _ _ hi]
    simp only [bind, Except.bind, gt_iff_lt, Nat.lt_irrefl, if_false]
    exact ih (by omega)

theorem bigint_cmp_same_nonneg (ds : List Nat) :
    bigint_cmp ⟨ds, false⟩ ⟨ds, false⟩ = .ok Cmp.CmpEQ := by
  unfold bigint_cmp
  by_cases hne : ds.length = 0
  · simp [hne, pure, Except.pure]
  · simp only [Bool.false_and, Bool.false_eq_true, if_false, Bool.not_false, Bool.and_false,
      gt_iff_lt, Nat.lt_irrefl, hne]
    exact cmp_loop_same_digits _ _ rfl _ (by simp only; omega)

theorem bigint_add_negate_self (a : BigInt) (ha : normalized a)
    (hla : a.digits.length ≤ SIZE_MAX) :
    bigint_add a (bigint_negate a) = .ok ⟨[], false⟩ := by
  obtain ⟨ds, s⟩ := a
  obtain ⟨_, hlast, hzero⟩ := ha
  simp only at hlast hzero hla
  by_cases hne : ds = []
  · subst hne
    rw [hzero rfl]
    decide
  · rw [bigint_negate_eq ds s hlast hne hla]
    unfold bigint_add
    cases s with
    | false =>
      simp only [Bool.not_false, Bool.false_eq_true, if_false]
      rw [bigint_negate_eq ds true hlast hne hla]
      simp only [Bool.not_true, bigint_cmp_same_nonneg, bind, Except.bind, pure, Except.pure]
      rfl
    | true =>
      simp only [Bool.not_true, if_true]
      rw [bigint_negate_eq ds true hlast hne hla]
      simp only [Bool.not_true, bigint_cmp_same_nonneg, bind, Except.bind, pure, Except.pure]
      rfl


/-! ## Multiplication: size of the result -/

theorem drop_trailing_zeros_append_zero (l : List Nat) :
    drop_trailing_zeros (l ++ [0]) = drop_trailing_zeros l := by
  induction l with
  | nil => simp [drop_trailing_zeros]
  | cons d l ih =>
    rw [List.cons_append, drop_trailing_zeros_cons, drop_trailing_zeros_cons, ih]

/-- An iteration of the multiplication loop at an index both operands have. -/
theorem mul_step_inside (mo : Nat → Nat → Nat × Nat) (a b : BigInt)
    (hmo : ∀ x y, x < WORD → y < WORD → (mo x y).1 < WORD ∧ (mo x y).2 < WORD)
    (ha : words a.digits) (hb : words b.digits) (i c : Nat)
    (hi : i < a.digits.length ∧ i < b.digits.length) :
    ∃ x carry, mul_step mo a b i c = .ok (x, carry, true) ∧ x < WORD ∧ carry < WORD := by
  have hW : 0 < WORD := by decide
  have hm := hmo _ _ (getD_lt_of_words _ ha i) (getD_lt_of_words _ hb i)
  unfold mul_step
  simp only [hi, and_self, if_true, list_at_of_lt _ _ hi.1, list_at_of_lt _ _ hi.2, bind,
    Except.bind, pure, Except.pure, uaddll_overflow]
  by_cases hc : c > 0
  · simp only [hc, if_true]
    refine ⟨_, _, rfl, Nat.mod_lt _ hW, ?_⟩
    split
    · exact Nat.mod_lt _ hW
    · exact hm.2
  · simp only [hc, if_false]
    exact ⟨_, _, rfl, hm.1, hm.2⟩

/-- An iteration of the multiplication loop past the shorter operand: the pending carry is
written out and nothing is carried on. -/
theorem mul_step_outside (mo : Nat → Nat → Nat × Nat) (a b : BigInt) (i c : Nat)
    (hc : c < WORD) (hi : ¬ (i < a.digits.length ∧ i < b.digits.length)) :
    mul_step mo a b i c = .ok (c, 0, decide (c > 0)) := by
  unfold mul_step
  simp only [hi, if_false, bind, Except.bind, pure, Except.pure, uaddll_overflow]
  by_cases h0 : c > 0
  · have h1 : ¬ (WORD ≤ c) := by omega
    simp [h0, h1, Nat.mod_eq_of_lt hc]
  · have : c = 0 := by omega
    simp [this]

theorem mul_loop_outside (mo : Nat → Nat → Nat × Nat) (a b : BigInt) (fuel i c : Nat)
    (dest : List Nat) (hc : c < WORD) (hi : ¬ (i < a.digits.length ∧ i < b.digits.length)) :
    mul_loop mo a b (fuel + 2) i c dest =
      .ok ((if c = 0 then dest else dest ++ [c]) ++ [0], 0) := by
  have hi' : ¬ (i + 1 < a.digits.length ∧ i + 1 < b.digits.length) := by
    intro h; exact hi ⟨by omega, by omega⟩
  rw [mul_loop, mul_step_outside mo a b i c hc hi]
  by_cases h0 : c = 0
  · subst h0
    simp [bind, Except.bind, pure, Except.pure]
  · have hpos : c > 0 := by omega
    simp only [hpos, decide_True, Bool.not_true, Bool.false_eq_true, if_false, h0, bind,
      Except.bind]
    rw [mul_loop, mul_step_outside mo a b (i + 1) 0 (by decide) hi']
    simp [bind, Except.bind, pure, Except.pure]

/-- The multiplication loop on operands of `n` digits each: it returns, carries nothing out,
and its digits end in a zero word preceded by at most `n + 1` words. -/
theorem mul_loop_spec (mo : Nat → Nat → Nat × Nat) (a b : BigInt) (n : Nat)
    (hmo : ∀ x y, x < WORD → y < WORD → (mo x y).1 < WORD ∧ (mo x y).2 < WORD)
    (ha : words a.digits) (hb : words b.digits)
    (hna : a.digits.length = n) (hnb : b.digits.length = n) :
    ∀ (fuel i c : Nat) (dest : List Nat), i ≤ n → c < WORD → words dest →
      n + 2 ≤ i + fuel →
      ∃ init, mul_loop mo a b fuel i c dest = .ok (init ++ [0], 0) ∧ words init ∧
        init.length ≤ dest.length + (n - i) + 1 ∧ (i = n → c = 0 → init = dest) := by
  intro fuel
  induction fuel with
  | zero => intro i c dest hi _ _ hf; omega
  | succ fuel ih =>
    intro i c dest hi hc hd hf
    by_cases hin : i = n
    · have hout : ¬ (i < a.digits.length ∧ i < b.digits.length) := by omega
      obtain ⟨k, hk⟩ : ∃ k, fuel + 1 = k + 2 := ⟨fuel - 1, by omega⟩
      rw [hk, mul_loop_outside mo a b k i c dest hc hout]
      refine ⟨if c = 0 then dest else dest ++ [c], rfl, ?_, ?_, ?_⟩
      · split
        · exact hd
        · exact words_append_singleton _ _ hd hc
      · split
        · omega
        · rw [List.length_append, List.length_singleton]; omega
      · intro _ h0
        simp [h0]
    · have hlt : i < a.digits.length ∧ i < b.digits.length := by omega
      obtain ⟨x, carry, hstep, hx, hcarry⟩ := mul_step_inside mo a b hmo ha hb i c hlt
      obtain ⟨init, hrun, hw, hlen, _⟩ :=
        ih (i + 1) carry (dest ++ [x]) (by omega) hcarry
          (words_append_singleton _ _ hd hx) (by omega)
      refine ⟨init, ?_, hw, ?_, fun h => absurd h hin⟩
      · rw [mul_loop, hstep]
        simpa [bind, Except.bind] using hrun
      · rw [List.length_append, List.length_singleton] at hlen
        omega


theorem mul_overflow_words (x y : Nat) (hx : x < WORD) (hy : y < WORD) :
    (mul_overflow x y).1 < WORD ∧ (mul_overflow x y).2 < WORD := by
  unfold mul_overflow
  refine ⟨Nat.mod_lt _ (by decide), ?_⟩
  apply Nat.div_lt_of_lt_mul
  exact Nat.mul_lt_mul'' hx hy

/-! ## The claims, continued -/

/-- C11 (fails on the code): writing and reading back with the same width and byte order
does not return the value. Little-endian, 32 bits: `1` is written as the bytes `1 0 0 0` and
read back as `2^24`, because the reader shifts the digit left before adding each byte.
Little-endian, 64 bits: `1` is read back as `0`, no byte of a full last digit being read.
Big-endian, 64 bits: the writer stores at index `0 + 7 - 8`. -/
theorem serialization_round_trip_fails :
    normalized ⟨[1], false⟩ ∧
    bigint_write_twos_complement ⟨[1], false⟩ [0, 0, 0, 0] false 32 = .ok [1, 0, 0, 0] ∧
    bigint_read_twos_complement ⟨[], false⟩ [1, 0, 0, 0] 32 false false =
      .ok ⟨[16777216], false⟩ ∧
    serialization_round_trip ⟨[1], false⟩ 32 false false = .ok ⟨[16777216], false⟩ ∧
    serialization_round_trip ⟨[1], false⟩ 32 false true = .ok ⟨[16777216], false⟩ ∧
    serialization_round_trip ⟨[1], false⟩ 64 false false = .ok ⟨[], false⟩ ∧
    serialization_round_trip ⟨[1], false⟩ 64 true false = .error Fault.outOfBounds := by
  decide

/-- C12 (fails on the code): `bigint_write_twos_complement` does not write exactly the first
`ceil(bit_count / 8)` bytes. Little-endian at 8 bits it stores seven bytes (and overruns a
one-byte buffer); at 56 bits it stores one byte of the seven; big-endian at 72 bits it
stores at index 0 and at indices 8 to 15 of which only 0 to 8 belong to the value. -/
theorem write_twos_complement_wrong_bytes :
    bigint_write_twos_complement ⟨[1], false⟩ (List.replicate 8 170) false 8 =
      .ok [1, 0, 0, 0, 0, 0, 0, 170] ∧
    bigint_write_twos_complement ⟨[1], false⟩ [170] false 8 = .error Fault.outOfBounds ∧
    bigint_write_twos_complement ⟨[1], false⟩ (List.replicate 7 170) false 56 =
      .ok [1, 170, 170, 170, 170, 170, 170] ∧
    bigint_write_twos_complement ⟨[258], false⟩ (List.replicate 16 170) true 72 =
      .ok [0, 170, 170, 170, 170, 170, 170, 170, 0, 0, 0, 0, 0, 0, 1, 2] ∧
    bigint_write_twos_complement ⟨[258], false⟩ (List.replicate 9 170) true 72 =
      .error Fault.outOfBounds ∧
    bigint_write_twos_complement ⟨[258], false⟩ (List.replicate 9 170) true 0 =
      .ok (List.replicate 9 170) := by
  decide

/-- C13 (fails on the code): adding canonical zero to a negative value of several digits
keeps the lowest digit only. `-(5 + 7 * 2^64) + 0` and `0 + -(5 + 7 * 2^64)` are both
returned as `-5`. -/
theorem additive_identity_fails :
    normalized ⟨[5, 7], true⟩ ∧
    bigint_init_unsigned 0 = ⟨[], false⟩ ∧
    bigint_add ⟨[5, 7], true⟩ (bigint_init_unsigned 0) = .ok ⟨[5], true⟩ ∧
    bigint_add (bigint_init_unsigned 0) ⟨[5, 7], true⟩ = .ok ⟨[5], true⟩ := by
  decide

/-- C14: for every normalized `a` (digit count at most `SIZE_MAX`),
`bigint_add a (bigint_negate a)` returns canonical zero, the value `bigint_init_unsigned 0`
with no digits and a false sign flag; and `bigint_negate` of canonical zero is canonical
zero. -/
theorem additive_inverse (a : BigInt) (ha : normalized a) (hla : a.digits.length ≤ SIZE_MAX) :
    bigint_add a (bigint_negate a) = .ok ⟨[], false⟩ ∧
    bigint_init_unsigned 0 = ⟨[], false⟩ ∧
    bigint_negate ⟨[], false⟩ = ⟨[], false⟩ :=
  ⟨bigint_add_negate_self a ha hla, by decide, by decide⟩

/-- C14 at `a = -(5 + 7 * 2^64)`. -/
theorem additive_inverse_witness :
    bigint_add ⟨[5, 7], true⟩ (bigint_negate ⟨[5, 7], true⟩) = .ok ⟨[], false⟩ ∧
    bigint_init_unsigned 0 = ⟨[], false⟩ ∧
    bigint_negate ⟨[], false⟩ = ⟨[], false⟩ :=
  additive_inverse ⟨[5, 7], true⟩ (by decide) (by decide)

/-- C16: for normalized `a` and `b` of `n` digits each (`n + 1 < SIZE_MAX`) and any
`mul_overflow` that returns two words, `bigint_mul` returns a value, that value has at most
`2 * n` digits, and it is normalized. -/
theorem multiplication_growth (mo : Nat → Nat → Nat × Nat) (n : Nat) (a b : BigInt)
    (hmo : ∀ x y, x < WORD → y < WORD → (mo x y).1 < WORD ∧ (mo x y).2 < WORD)
    (ha : normalized a) (hb : normalized b)
    (hna : a.digits.length = n) (hnb : b.digits.length = n) (hn : n + 1 < SIZE_MAX) :
    ∃ r, bigint_mul_with mo a b = .ok r ∧ r.digits.length ≤ 2 * n ∧ normalized r := by
  obtain ⟨init, hrun, hw, hlen, hzero⟩ :=
    mul_loop_spec mo a b n hmo ha.1 hb.1 hna hnb (min a.digits.length b.digits.length + 2)
      0 0 [] (Nat.zero_le _) (by decide) (by intro d hd; simp at hd)
      (by rw [hna, hnb]; simp)
  have hraw : words (init ++ [0]) := words_append_singleton _ _ hw (by decide)
  have hrawlen : (init ++ [0]).length ≤ SIZE_MAX := by
    rw [List.length_append, List.length_singleton]
    simp only [List.length_nil] at hlen
    omega
  refine ⟨_, ?_, ?_, normalized_bigint_normalize (init ++ [0])
    (a.is_negative != b.is_negative) hraw hrawlen⟩
  · unfold bigint_mul_with
    simp only [hrun, bind, Except.bind, pure, Except.pure, gt_iff_lt, Nat.lt_irrefl, if_false]
  · rw [bigint_normalize_eq _ _ hrawlen]
    simp only [drop_trailing_zeros_append_zero]
    have h1 := drop_trailing_zeros_length_le init
    by_cases h0 : n = 0
    · have : init = [] := hzero h0.symm rfl
      rw [this]
      simp [drop_trailing_zeros]
    · simp only [List.length_nil] at hlen
      omega

/-- C16 at `n = 2`, `a = 1 + 2 * 2^64`, `b = -(3 + 4 * 2^64)` and the `mul_overflow` of the
spec. -/
theorem multiplication_growth_witness :
    ∃ r, bigint_mul_with mul_overflow ⟨[1, 2], false⟩ ⟨[3, 4], true⟩ = .ok r ∧
      r.digits.length ≤ 2 * 2 ∧ normalized r :=
  multiplication_growth mul_overflow 2 ⟨[1, 2], false⟩ ⟨[3, 4], true⟩ mul_overflow_words
    (by decide) (by decide) (by decide) (by decide) (by decide)

/-- C17, as stated, fails at `to_twos_complement`, which has no case for `bit_count = 0`:
called at width zero it returns `5` for `5` and `1` for `-1`; `from_twos_complement`,
`bigint_not` and `bigint_truncate` do return canonical zero there. -/
theorem to_twos_complement_width_zero :
    normalized ⟨[5], false⟩ ∧ normalized ⟨[1], true⟩ ∧
    to_twos_complement ⟨[5], false⟩ 0 = .ok ⟨[5], false⟩ ∧
    to_twos_complement ⟨[1], true⟩ 0 = .ok ⟨[1], false⟩ ∧
    from_twos_complement ⟨[5], false⟩ 0 = .ok ⟨[], false⟩ ∧
    bigint_not ⟨[5], false⟩ 0 = .ok ⟨[], false⟩ ∧
    bigint_not ⟨[1], true⟩ 0 = .ok ⟨[], false⟩ ∧
    bigint_truncate ⟨[9], true⟩ ⟨[5], false⟩ 0 = .ok ⟨[], false⟩ ∧
    bigint_truncate ⟨[9], true⟩ ⟨[1], true⟩ 0 = .ok ⟨[], false⟩ := by
  decide

/-- C17, amended: at `bit_count = 0`, for every `v` and every prior content of the
destination, `from_twos_complement` (on non-negative `v`), `bigint_not` and `bigint_truncate`
yield canonical zero. `to_twos_complement` is kept away from width zero by its callers:
`bigint_write_twos_complement`, `bigint_not`, `bigint_truncate` and `bigint_ctz` each return
at `bit_count = 0` before calling it (the buffer is left as it was, the count is 0); called
at width zero all the same, it returns a copy of a non-negative `v`. -/
theorem width_zero_yields_canonical_zero (v dest : BigInt) (buf : List Nat)
    (is_big_endian : Bool) :
    (v.is_negative = false → from_twos_complement v 0 = .ok ⟨[], false⟩) ∧
    bigint_not v 0 = .ok ⟨[], false⟩ ∧
    bigint_truncate dest v 0 = .ok ⟨[], false⟩ ∧
    bigint_write_twos_complement v buf is_big_endian 0 = .ok buf ∧
    bigint_ctz v 0 = .ok 0 ∧
    (v.is_negative = false → to_twos_complement v 0 = .ok (bigint_init_bigint v)) := by
  have hz : bigint_init_unsigned 0 = ⟨[], false⟩ := by decide
  refine ⟨?_, ?_, ?_, ?_, ?_, ?_⟩
  · intro hv
    simp [from_twos_complement, CALL_DEPTH, from_twos_complement_rec, hv, hz, pure,
      Except.pure]
  · simp [bigint_not, CALL_DEPTH, bigint_not_rec, hz, pure, Except.pure]
  · simp [bigint_truncate, CALL_DEPTH, bigint_truncate_rec, hz, pure, Except.pure]
  · simp [bigint_write_twos_complement, pure, Except.pure]
  · simp [bigint_ctz, pure, Except.pure]
  · intro hv
    simp [to_twos_complement, CALL_DEPTH, to_twos_complement_rec, hv, pure, Except.pure]

/-- C18 (fails on the code): `bigint_clz` is wrong on values of several digits and on
windows wider than the stored digits. In a window of 128 bits `2^64`, whose bit length is
65, gets 127 instead of 63, and `1` gets no count at all, `bit_at_index` indexing past its
only digit; in a window of 8 bits `1` gets 7, and negative values and zero get 0. -/
theorem bigint_clz_wrong_outside_one_word :
    normalized ⟨[0, 1], false⟩ ∧
    bigint_clz ⟨[0, 1], false⟩ 128 = .ok 127 ∧
    bigint_clz ⟨[1], false⟩ 128 = .error Fault.assertion ∧
    bigint_clz ⟨[1], false⟩ 8 = .ok 7 ∧
    bigint_clz ⟨[1], true⟩ 8 = .ok 0 ∧
    bigint_clz ⟨[], false⟩ 8 = .ok 0 := by
  set_option maxRecDepth 100000 in decide

/-- C19, as stated, fails: with the destination being `op1` itself, `bigint_add` empties
`op1` before reading it. `5 + 3` leaves `3` in the shared object, where a call with a
separate destination yields `8`; `3 + -(5 + 2^64)` leaves `-5`, where a separate destination
yields `-(2 + 2^64)`. -/
theorem bigint_add_aliased_loses_op1 :
    normalized ⟨[5], false⟩ ∧ normalized ⟨[3], false⟩ ∧
    bigint_add_aliased ⟨[5], false⟩ ⟨[3], false⟩ = .ok ⟨[3], false⟩ ∧
    bigint_add ⟨[5], false⟩ ⟨[3], false⟩ = .ok ⟨[8], false⟩ ∧
    bigint_add_aliased ⟨[5, 1], true⟩ ⟨[3], true⟩ = .ok ⟨[3], true⟩ ∧
    bigint_add ⟨[5, 1], true⟩ ⟨[3], true⟩ = .ok ⟨[8, 1], true⟩ ∧
    normalized ⟨[5, 1], true⟩ ∧
    bigint_add_aliased ⟨[3], false⟩ ⟨[5, 1], true⟩ = .ok ⟨[5], true⟩ ∧
    bigint_add ⟨[3], false⟩ ⟨[5, 1], true⟩ = .ok ⟨[2, 1], true⟩ := by
  decide

theorem add_same_loop_aliased_copies (s : Bool) (b : BigInt) (hb : words b.digits) :
    ∀ (fuel i : Nat) (dest : List Nat), dest.length = i → words dest →
      i ≤ b.digits.length → b.digits.length + 1 ≤ i + fuel →
      add_same_loop_aliased s b fuel i 0 dest = .ok (dest ++ b.digits.drop i ++ [0], 0) := by
  intro fuel
  induction fuel with
  | zero => intro i dest _ _ hi hf; omega
  | succ fuel ih =>
    intro i dest hlen hd hi hf
    have hbi := getD_lt_of_words _ hb i
    have hdi : dest.getD i 0 = 0 := getD_of_le dest i (by omega)
    rw [add_same_loop_aliased,
      add_same_step_eq ⟨dest, s⟩ b i 0 (Nat.zero_le _) hd hb]
    simp only [hdi, Nat.zero_add, Nat.mod_eq_of_lt hbi, Nat.div_eq_of_lt hbi, hlen,
      Nat.lt_irrefl, false_or, bind, Except.bind]
    by_cases hlt : i < b.digits.length
    · simp only [hlt, decide_True, Bool.not_true, Bool.false_eq_true, if_false]
      rw [ih (i + 1) (dest ++ [b.digits.getD i 0])
        (by rw [List.length_append, List.length_singleton, hlen])
        (words_append_singleton _ _ hd hbi) hlt (by omega)]
      have hdrop : b.digits.drop i = b.digits.getD i 0 :: b.digits.drop (i + 1) := by
        rw [List.drop_eq_getElem_cons hlt]
        simp [List.getD_eq_getElem?_getD, hlt]
      rw [hdrop]
      simp
    · have hdrop : b.digits.drop i = [] := List.drop_of_length_le (by omega)
      have h0 : b.digits.getD i 0 = 0 := getD_of_le _ _ (by omega)
      rw [h0, hdrop]
      simp [hlt, pure, Except.pure]

/-- C19, amended: `bigint_add` does not support a destination that is `op1` itself when the
operands have equal sign: for every `a` and normalized `b` (digit count below `SIZE_MAX`)
the shared object ends up holding `b`, the digits of `a` being cleared before they are read. When the signs differ, and `op1` is
negative or `bigint_cmp` does not answer `CmpLT`, the operands are copied or read before
the destination overwrites them, and the call leaves the same outcome as a call with a
separate destination. -/
theorem bigint_add_aliased_outcome (a b : BigInt) (hb : normalized b)
    (hlb : b.digits.length < SIZE_MAX) :
    (a.is_negative = b.is_negative → bigint_add_aliased a b = .ok b) ∧
    (a.is_negative ≠ b.is_negative →
      (a.is_negative = true ∨ bigint_cmp a (bigint_negate b) ≠ .ok Cmp.CmpLT) →
      bigint_add_aliased a b = bigint_add a b) := by
  constructor
  · intro hs
    unfold bigint_add_aliased
    rw [if_pos hs, add_same_loop_aliased_copies a.is_negative b hb.1 _ 0 [] rfl
      (by intro d hd; simp at hd) (Nat.zero_le _) (by omega)]
    simp only [List.nil_append, List.drop_zero, bind, Except.bind, pure, Except.pure,
      gt_iff_lt, Nat.lt_irrefl, if_false]
    rw [bigint_normalize_eq _ _ (by rw [List.length_append, List.length_singleton]; omega),
      drop_trailing_zeros_append_zero, drop_trailing_zeros_of_getLast _ hb.2.1]
    obtain ⟨ds, sb⟩ := b
    simp only at hs ⊢
    by_cases hne : ds = []
    · have := hb.2.2 hne
      simp only at this
      simp [hne, this]
    · simp [hne, hs]
  · intro hs hcase
    unfold bigint_add_aliased bigint_add
    rw [if_neg hs, if_neg hs]
    by_cases hneg : a.is_negative = true
    · simp only [hneg, if_true]
    · have hfalse : a.is_negative = false := by simpa using hneg
      have hcmp : bigint_cmp a (bigint_negate b) ≠ .ok Cmp.CmpLT := by
        rcases hcase with h | h
        · exact absurd h hneg
        · exact h
      simp only [hfalse, Bool.false_eq_true, if_false]
      cases hc : bigint_cmp a (bigint_negate b) with
      | error e => rfl
      | ok c =>
        cases c with
        | CmpLT => exact absurd hc hcmp
        | CmpGT => rfl
        | CmpEQ => rfl

/-- C19, amended, at `a = 5`, `b = 3`: the shared object ends up holding `3`. -/
theorem bigint_add_aliased_outcome_witness :
    bigint_add_aliased ⟨[5], false⟩ ⟨[3], false⟩ = .ok ⟨[3], false⟩ ∧
    bigint_add_aliased ⟨[5, 1], false⟩ ⟨[3], true⟩ = .ok ⟨[2, 1], false⟩ ∧
    bigint_add_aliased ⟨[5, 1], false⟩ ⟨[3], true⟩ = bigint_add ⟨[5, 1], false⟩ ⟨[3], true⟩ :=
  ⟨(bigint_add_aliased_outcome ⟨[5], false⟩ ⟨[3], false⟩ (by decide) (by decide)).1 rfl,
    by decide,
    (bigint_add_aliased_outcome ⟨[5, 1], false⟩ ⟨[3], true⟩ (by decide) (by decide)).2
      (by decide) (Or.inr (by decide))⟩

/-- C20: for normalized `a` and `b` with equal sign flags (digit counts below `SIZE_MAX`),
`bigint_add a b` returns a normalized value of magnitude `|a| + |b|` whose sign flag is that
of the operands, or false when the sum is zero; its value is `value a + value b`. In every
iteration of the loop the digit written and the carry passed on make up the exact sum of the
incoming carry and the two digits, and the carry is at most 1. -/
theorem same_sign_addition_exact (a b : BigInt) (ha : normalized a) (hb : normalized b)
    (hs : a.is_negative = b.is_negative)
    (hla : a.digits.length < SIZE_MAX) (hlb : b.digits.length < SIZE_MAX) :
    (∃ r, bigint_add a b = .ok r ∧ normalized r ∧
      mag r.digits = mag a.digits + mag b.digits ∧
      r.is_negative = (if mag a.digits + mag b.digits = 0 then false else a.is_negative) ∧
      value r = value a + value b) ∧
    (∀ i c, c ≤ 1 → ∃ x o f, add_same_step a b i c = .ok (x, o, f) ∧ o ≤ 1 ∧ x < WORD ∧
      x + WORD * o = c + a.digits.getD i 0 + b.digits.getD i 0) := by
  constructor
  · obtain ⟨digits, hmag, hrun⟩ := bigint_add_same_sign a b ha.1 hb.1 hs hla hlb
    refine ⟨_, hrun, (bigint_add_normalized a b ha.1 hb.1 hla hlb).2.1 _ hrun, ?_, rfl, ?_⟩
    · simp only [mag_drop_trailing_zeros, hmag]
    · unfold value
      simp only [mag_drop_trailing_zeros, hmag, ← hs]
      by_cases hz : mag a.digits + mag b.digits = 0
      · have h1 : mag a.digits = 0 := by omega
        have h2 : mag b.digits = 0 := by omega
        simp [h1, h2]
      · cases a.is_negative
        · simp [hz]
        · simp [hz]; ring
  · intro i c hc
    have hx := getD_lt_of_words _ ha.1 i
    have hy := getD_lt_of_words _ hb.1 i
    refine ⟨_, _, _, add_same_step_eq a b i c hc ha.1 hb.1, ?_, Nat.mod_lt _ (by decide), ?_⟩
    · simp only [WORD] at *; omega
    · have := Nat.mod_add_div (c + a.digits.getD i 0 + b.digits.getD i 0) WORD
      omega

/-- C20 at `a = 2^64 - 1 + (2^64 - 1) * 2^64`, `b = 1`: the carry ripples past both
digits of `a`. -/
theorem same_sign_addition_exact_witness :
    bigint_add ⟨[18446744073709551615, 18446744073709551615], false⟩ ⟨[1], false⟩ =
      .ok ⟨[0, 0, 1], false⟩ ∧
    (∃ r, bigint_add ⟨[18446744073709551615, 18446744073709551615], false⟩ ⟨[1], false⟩ =
        .ok r ∧ normalized r ∧
      mag r.digits = mag [18446744073709551615, 18446744073709551615] + mag [1]) :=
  ⟨by decide,
    let ⟨r, h1, h2, h3, _⟩ := (same_sign_addition_exact
      ⟨[18446744073709551615, 18446744073709551615], false⟩ ⟨[1], false⟩
      (by decide) (by decide) (by decide) (by decide) (by decide)).1
    ⟨r, h1, h2, h3⟩⟩


/-! ## The differing-sign branch: what can and cannot go wrong -/

theorem add_diff_step_not_found (bigger_op smaller_op : BigInt) (i c x o : Nat)
    (h : add_diff_step bigger_op smaller_op i c = .ok (x, o, false)) : o = 0 := by
  unfold add_diff_step at h
  rcases add_diff_step_cases bigger_op smaller_op i c with ⟨hle, _⟩ | ⟨hlt, _⟩
  · simp [list_items, Nat.not_lt.mpr hle, bind, Except.bind] at h
  · by_cases hs : i < smaller_op.digits.length
    · simp only [list_items_of_lt _ _ hlt, list_items_of_lt _ _ hs, hs, if_true, bind,
        Except.bind, pure, Except.pure] at h
      split at h <;> simp at h
    · simp only [list_items_of_lt _ _ hlt, hs, if_false, bind, Except.bind, pure,
        Except.pure] at h
      split at h
      · simp at h
      · simp only [Except.ok.injEq, Prod.mk.injEq] at h
        exact h.2.1.symm

/-- The differing-sign loop leaves no borrow behind when it returns, and it stops early only
by reading past `bigger_op`. -/
theorem add_diff_loop_outcome (bigger_op smaller_op : BigInt) :
    ∀ (fuel i c : Nat) (dest : List Nat), i ≤ bigger_op.digits.length →
      bigger_op.digits.length + 1 ≤ i + fuel →
      (∃ digits, add_diff_loop bigger_op smaller_op fuel i c dest = .ok (digits, 0)) ∨
      add_diff_loop bigger_op smaller_op fuel i c dest = .error Fault.outOfBounds := by
  intro fuel
  induction fuel with
  | zero => intro i c dest hi hf; omega
  | succ fuel ih =>
    intro i c dest hi hf
    rw [add_diff_loop]
    rcases add_diff_step_cases bigger_op smaller_op i c with ⟨_, he⟩ | ⟨hlt, x, o, f, he, _⟩
    · right
      simp [he, bind, Except.bind]
    · cases f with
      | false =>
        left
        have ho := add_diff_step_not_found bigger_op smaller_op i c x o he
        subst ho
        exact ⟨dest ++ [x], by simp [he, bind, Except.bind, pure, Except.pure]⟩
      | true =>
        simp only [he, bind, Except.bind, Bool.not_true, Bool.false_eq_true, if_false]
        exact ih (i + 1) o (dest ++ [x]) hlt (by omega)

/-- After the `switch`, `bigint_add` either returns or reads past `bigger_op`: the assertion
on the final borrow holds whenever it is reached. -/
theorem add_diff_tail_outcome (bigger_op smaller_op : BigInt) (s : Bool) :
    (∃ r, add_diff_tail bigger_op smaller_op s = .ok r) ∨
    add_diff_tail bigger_op smaller_op s = .error Fault.outOfBounds := by
  unfold add_diff_tail
  rcases add_diff_loop_outcome bigger_op smaller_op (bigger_op.digits.length + 1) 0 0 []
    (Nat.zero_le _) (by omega) with ⟨digits, h⟩ | h
  · left
    refine ⟨bigint_normalize { digits := digits, is_negative := s }, ?_⟩
    simp [h, bind, Except.bind, pure, Except.pure]
  · right
    simp [h, bind, Except.bind]

theorem cmp_loop_returns (op1 op2 : BigInt) :
    ∀ i, i < op1.digits.length → i < op2.digits.length →
      ∃ c, cmp_loop op1 op2 i = .ok c := by
  intro i
  induction i with
  | zero =>
    intro h1 h2
    unfold cmp_loop
    simp only [list_at_of_lt _ _ h1, list_at_of_lt _ _ h2, bind, Except.bind, pure, Except.pure]
    split
    · exact ⟨_, rfl⟩
    · exact ⟨_, rfl⟩
  | succ i ih =>
    intro h1 h2
    unfold cmp_loop
    simp only [list_at_of_lt _ _ h1, list_at_of_lt _ _ h2, bind, Except.bind, pure, Except.pure]
    split
    · exact ⟨_, rfl⟩
    · exact ih (by omega) (by omega)

theorem bigint_cmp_returns (op1 op2 : BigInt) : ∃ c, bigint_cmp op1 op2 = .ok c := by
  unfold bigint_cmp
  simp only [pure, Except.pure]
  split
  · exact ⟨_, rfl⟩
  · split
    · exact ⟨_, rfl⟩
    · split
      · exact ⟨_, rfl⟩
      · split
        · exact ⟨_, rfl⟩
        · split
          · exact ⟨_, rfl⟩
          · exact cmp_loop_returns op1 op2 _ (by omega) (by omega)

/-- On operands of differing sign `bigint_add` returns a value or reads past `bigger_op`;
no other outcome exists. -/
theorem bigint_add_differing_outcome (a b : BigInt) (hs : a.is_negative ≠ b.is_negative) :
    (∃ r, bigint_add a b = .ok r) ∨ bigint_add a b = .error Fault.outOfBounds := by
  unfold bigint_add
  rw [if_neg hs]
  obtain ⟨c, hc⟩ := bigint_cmp_returns (if a.is_negative then b else a)
    (bigint_negate (if a.is_negative then a else b))
  simp only [hc, bind, Except.bind]
  cases c with
  | CmpEQ => exact Or.inl ⟨_, rfl⟩
  | CmpLT => exact add_diff_tail_outcome _ _ _
  | CmpGT => exact add_diff_tail_outcome _ _ _

/-! ## The claims, concluded -/

/-- C21 (fails on the code): the differing-sign branch of `bigint_add` is not safe.
For `5 + (-3)` the subtraction loop reads `bigger_op->digits.items[1]` of the one-digit
`bigger_op`. For `(5 + 2^64) + -(3 + 2 * 2^64)` `bigint_cmp` answers `CmpGT`, so the operand
of smaller magnitude becomes `bigger_op`, and the loop reads its `items[2]`. What does hold
for all operands of differing sign: the call returns or stops at such a read, so the loop
terminates and `assert(overflow == 0)` never fails. -/
theorem differing_sign_branch_reads_past_bigger_op :
    normalized ⟨[5], false⟩ ∧ normalized ⟨[3], true⟩ ∧
    bigint_cmp ⟨[5], false⟩ (bigint_negate ⟨[3], true⟩) = .ok Cmp.CmpGT ∧
    add_diff_step ⟨[5], false⟩ (bigint_negate ⟨[3], true⟩) 0 0 = .ok (2, 0, true) ∧
    add_diff_step ⟨[5], false⟩ (bigint_negate ⟨[3], true⟩) 1 0 = .error Fault.outOfBounds ∧
    bigint_add ⟨[5], false⟩ ⟨[3], true⟩ = .error Fault.outOfBounds ∧
    normalized ⟨[5, 1], false⟩ ∧ normalized ⟨[3, 2], true⟩ ∧
    bigint_cmp ⟨[5, 1], false⟩ (bigint_negate ⟨[3, 2], true⟩) = .ok Cmp.CmpGT ∧
    mag [5, 1] < mag [3, 2] ∧
    bigint_add ⟨[5, 1], false⟩ ⟨[3, 2], true⟩ = .error Fault.outOfBounds ∧
    (∀ a b : BigInt, a.is_negative ≠ b.is_negative →
      (∃ r, bigint_add a b = .ok r) ∨ bigint_add a b = .error Fault.outOfBounds) :=
  ⟨by decide, by decide, by decide, by decide, by decide, by decide, by decide, by decide,
    by decide, by decide, by decide, bigint_add_differing_outcome⟩

/-- C22 (fails on the code): for digits from 10 on `digit_to_char` adds the digit itself to
the letter `a` (or `A`), not the digit less ten. `10` maps to `k` and `15` to `p`, in upper
case to `K` and `P`; every digit from 10 to 35 lands ten letters too far. Digits up to 9
are mapped as claimed, and `zig_unreachable` is reached exactly for digits above 35. -/
theorem digit_to_char_letters_off_by_ten :
    digit_to_char 10 false = some 'k'.toNat ∧ base36_digit_char 10 false = 'a'.toNat ∧
    digit_to_char 15 false = some 'p'.toNat ∧ base36_digit_char 15 false = 'f'.toNat ∧
    digit_to_char 10 true = some 'K'.toNat ∧ base36_digit_char 10 true = 'A'.toNat ∧
    digit_to_char 15 true = some 'P'.toNat ∧ base36_digit_char 15 true = 'F'.toNat ∧
    (∀ d u, 10 ≤ d → d ≤ 35 → digit_to_char d u = some (base36_digit_char d u + 10)) ∧
    (∀ d u, d ≤ 9 → digit_to_char d u = some (base36_digit_char d u)) ∧
    (∀ d u, digit_to_char d u = none ↔ 35 < d) := by
  refine ⟨by decide, by decide, by decide, by decide, by decide, by decide, by decide,
    by decide, ?_, ?_, ?_⟩
  · intro d u h1 h2
    have h9 : ¬ d ≤ 9 := by omega
    have ha : 'a'.toNat = 97 := by decide
    have hA : 'A'.toNat = 65 := by decide
    unfold digit_to_char base36_digit_char
    rw [if_neg (by omega), if_pos ⟨h1, h2⟩, if_neg h9]
    cases u
    · simp only [Bool.false_eq_true, if_false, ha, Option.some.injEq]; omega
    · simp only [if_true, hA, Option.some.injEq]; omega
  · intro d u h
    have h0 : '0'.toNat = 48 := by decide
    unfold digit_to_char base36_digit_char
    rw [if_pos ⟨Nat.zero_le _, h⟩, if_pos h, h0]
    simp only [Option.some.injEq]
    omega
  · intro d u
    unfold digit_to_char
    constructor
    · intro h
      by_contra hle
      by_cases h9 : d ≤ 9
      · rw [if_pos ⟨Nat.zero_le _, h9⟩] at h
        simp at h
      · rw [if_neg (by omega), if_pos ⟨by omega, by omega⟩] at h
        simp at h
    · intro h
      rw [if_neg (by omega), if_neg (by omega)]

end ZigBigInt
